import Mathlib

/-!
Verification of the download routing and file-type detection subsystem of
`downloader-links-secure-token-stats-raw.py` (data-importer).

Python strings are embedded as `List Char` (Unicode scalar values); byte
buffers as `List Nat` with entries below 256.  Each definition mirrors one
Python function of the source file; Python's `str.lower()` is modelled on
the ASCII range (the only range the classifier's comparisons inspect) and
`str.strip()` uses Python's whitespace set.
-/

/-- Python `str` values: a list of Unicode scalar values. -/
abbrev Str := List Char

/-- Python bytes: a list of byte values (each below 256 where constructed). -/
abbrev Bytes := List Nat

/-- ASCII lowering of one character, as Python `str.lower()` acts on the
ASCII letters `A`..`Z` (codepoints 65..90); every other character is kept. -/
def lowerChar (c : Char) : Char :=
  if h : 65 ≤ c.toNat ∧ c.toNat ≤ 90 then
    Char.ofNatAux (c.toNat + 32) (Or.inl (by omega))
  else c

/-- Model of Python `str.lower()` (ASCII range). -/
def toLowerS (s : Str) : Str := s.map lowerChar

/-- Substring membership, Python's `pat in hay` on strings. -/
def containsSub {α : Type} [DecidableEq α] (hay pat : List α) : Bool :=
  if pat.isPrefixOf hay then true
  else
    match hay with
    | [] => false
    | _ :: rest => containsSub rest pat

theorem toNat_ofNatAux (n : Nat) (h : n.isValidChar) :
    (Char.ofNatAux n h).toNat = n := by
  simp [Char.ofNatAux, Char.toNat, UInt32.toNat]

theorem lowerChar_lowerChar (c : Char) : lowerChar (lowerChar c) = lowerChar c := by
  unfold lowerChar
  split
  · next h =>
    rw [dif_neg]
    rw [toNat_ofNatAux]
    omega
  · rfl

theorem toLowerS_toLowerS (s : Str) : toLowerS (toLowerS s) = toLowerS s := by
  simp only [toLowerS, List.map_map]
  exact List.map_congr_left (fun c _ => lowerChar_lowerChar c)

/-! Link Resolver: `is_github_url`, `is_github_release_url`, `needs_proxy`
(URL routing section of the source, lines 293..321). -/

/-- Model of `is_github_url`: case-insensitive substring test for
`github.com` or `raw.githubusercontent.com`. -/
def is_github_url (url : Str) : Bool :=
  let url_lower := toLowerS url
  containsSub url_lower "github.com".toList ||
    containsSub url_lower "raw.githubusercontent.com".toList

/-- Model of `is_github_release_url`: the URL contains `github.com` and
`/releases/`, case-insensitively. -/
def is_github_release_url (url : Str) : Bool :=
  let url_lower := toLowerS url
  containsSub url_lower "github.com".toList &&
    containsSub url_lower "/releases/".toList

/-- Model of `needs_proxy`: decides whether a URL goes through a CORS
proxy.  Mirrors the Python decision chain line by line. -/
def needs_proxy (url : Str) (is_private : Bool) : Bool :=
  let url_lower := toLowerS url
  if is_private then is_github_url url_lower
  else if containsSub url_lower "github.com".toList &&
      containsSub url_lower "/releases/".toList then true
  else if containsSub url_lower "drive.google.com".toList ||
      containsSub url_lower "drive.usercontent.google.com".toList then true
  else if containsSub url_lower "dropbox.com".toList then true
  else false

/-- The spec's three-valued proxy decision. -/
inductive ProxyDecision where
  | none
  | publicProxy
  | privateProxy
deriving DecidableEq, Repr

/-- The proxy decision the code induces: the callers of `needs_proxy`
(source lines 1718..1740) route a `True` answer to the private proxy
exactly when `is_private` is set, and to the public proxy otherwise. -/
def needsProxyDecision (url : Str) (is_private : Bool) : ProxyDecision :=
  if needs_proxy url is_private then
    (if is_private then .privateProxy else .publicProxy)
  else .none

/-- Provider test for GitHub per the spec's `classifyProvider`:
case-insensitive substring match for `github.com` or
`raw.githubusercontent.com`. -/
def providerGitHub (url : Str) : Bool :=
  containsSub (toLowerS url) "github.com".toList ||
    containsSub (toLowerS url) "raw.githubusercontent.com".toList

/-- Provider test for Google Drive per the spec's `classifyProvider`:
case-insensitive substring match for `drive.google.com` or
`drive.usercontent.google.com`. -/
def providerGoogleDrive (url : Str) : Bool :=
  containsSub (toLowerS url) "drive.google.com".toList ||
    containsSub (toLowerS url) "drive.usercontent.google.com".toList

/-- Provider test for Dropbox per the spec's `classifyProvider`:
case-insensitive substring match for `dropbox.com`. -/
def providerDropbox (url : Str) : Bool :=
  containsSub (toLowerS url) "dropbox.com".toList

/-! Google Drive link rewriting: `convert_google_drive_url` (source lines
339..370) and `extract_gdrive_file_id` (source lines 373..397).  The three
Python regexes `/file/d/([a-zA-Z0-9_-]+)`, `/open\?id=([a-zA-Z0-9_-]+)` and
`[?&]id=([a-zA-Z0-9_-]+)` are modelled as leftmost-match scanners with a
greedy nonempty capture of the id character class. -/

/-- Character class `[a-zA-Z0-9_-]` of the Drive file-id regexes. -/
def idChar (c : Char) : Bool :=
  decide (('a' ≤ c ∧ c ≤ 'z') ∨ ('A' ≤ c ∧ c ≤ 'Z') ∨
    ('0' ≤ c ∧ c ≤ '9') ∨ c = '_' ∨ c = '-')

/-- Leftmost match of the regex `lit([a-zA-Z0-9_-]+)`: scan positions left
to right; at a position the literal must occur followed by at least one
class character, and the capture is the maximal class run after the
literal. -/
def searchLitId (lit : Str) : Str → Option Str
  | [] => none
  | c :: rest =>
    if lit.isPrefixOf (c :: rest) then
      match (c :: rest).drop lit.length with
      | a :: after =>
        if idChar a then some (a :: after.takeWhile idChar)
        else searchLitId lit rest
      | [] => searchLitId lit rest
    else searchLitId lit rest

/-- Leftmost match of the regex `[?&]id=([a-zA-Z0-9_-]+)`: one of `?` or
`&`, the literal `id=`, then a maximal nonempty class run. -/
def searchQId : Str → Option Str
  | [] => none
  | c :: rest =>
    if (c = '?' ∨ c = '&') ∧ "id=".toList.isPrefixOf rest then
      match rest.drop 3 with
      | a :: after =>
        if idChar a then some (a :: after.takeWhile idChar)
        else searchQId rest
      | [] => searchQId rest
    else searchQId rest

/-- The file-id extraction chain of `convert_google_drive_url` and
`extract_gdrive_file_id`: try `/file/d/{id}`, then `/open?id={id}`, then
`[?&]id={id}`, first success winning. -/
def gdriveFileIdChain (s : Str) : Option Str :=
  match searchLitId "/file/d/".toList s with
  | some fid => some fid
  | none =>
    match searchLitId "/open?id=".toList s with
    | some fid => some fid
    | none => searchQId s

/-- Model of `convert_google_drive_url`: converts Google Drive sharing URLs
to direct download URLs, mirroring the Python branch for branch. -/
def convert_google_drive_url (url : Str) : Str × Bool :=
  let url_lower := toLowerS url
  if !(containsSub url_lower "drive.google.com".toList) &&
      !(containsSub url_lower "drive.usercontent.google.com".toList) then
    (url, false)
  else if containsSub url_lower "drive.usercontent.google.com".toList &&
      containsSub url_lower "confirm=t".toList then
    (url, false)
  else
    match gdriveFileIdChain url with
    | some file_id =>
      ("https://drive.usercontent.google.com/download?id=".toList ++ file_id ++
        "&export=download&confirm=t".toList, true)
    | none => (url, false)

/-- Python whitespace, the set `str.strip()` removes (`str.isspace`). -/
def pySpace (c : Char) : Bool :=
  decide (c.toNat ∈ ([9, 10, 11, 12, 13, 28, 29, 30, 31, 32, 133, 160, 5760,
    8192, 8193, 8194, 8195, 8196, 8197, 8198, 8199, 8200, 8201, 8202,
    8232, 8233, 8239, 8287, 12288] : List Nat))

/-- Model of Python `str.strip()`: drop whitespace from both ends. -/
def stripS (s : Str) : Str :=
  ((s.dropWhile pySpace).reverse.dropWhile pySpace).reverse

/-- The URL-ish test of `extract_gdrive_file_id`: the (stripped) input
contains `http` or `drive.google.com` case-insensitively. -/
def gdriveUrlLike (s : Str) : Bool :=
  containsSub (toLowerS s) "http".toList ||
    containsSub (toLowerS s) "drive.google.com".toList

/-- Model of `extract_gdrive_file_id`: extracts a Drive file id from a URL,
or accepts a bare file id (`^[a-zA-Z0-9_-]+$`, length over 10) as-is. -/
def extract_gdrive_file_id (input_str : Str) : Option Str :=
  let i := stripS input_str
  if gdriveUrlLike i then gdriveFileIdChain i
  else if i.all idChar && decide (10 < i.length) then some i
  else none

/-- C2 counterexample: on the already-direct URL
`https://drive.usercontent.google.com/download?id=AbCdEfGh123&export=download&confirm=t`
the extraction chain does find an identifier, yet the function returns the
URL with the rewritten flag `false` (the claim as stated predicts `true`),
because of the `confirm=t` early return the claim omits. -/
theorem convert_google_drive_url_direct_counterexample :
    gdriveFileIdChain
        "https://drive.usercontent.google.com/download?id=AbCdEfGh123&export=download&confirm=t".toList =
      some "AbCdEfGh123".toList ∧
    convert_google_drive_url
        "https://drive.usercontent.google.com/download?id=AbCdEfGh123&export=download&confirm=t".toList =
      ("https://drive.usercontent.google.com/download?id=AbCdEfGh123&export=download&confirm=t".toList,
        false) := by
  constructor <;> decide

/-- C2 amended: `convert_google_drive_url` returns `(u, false)` on every
URL not containing `drive.google.com` or `drive.usercontent.google.com`
case-insensitively, returns `(u, false)` on every URL containing
`drive.usercontent.google.com` together with `confirm=t` (the already-direct
early return), and otherwise extracts a file identifier by the ordered
chain `/file/d/{id}`, `/open?id={id}`, `[?&]id={id}` (first success wins),
returning the direct-download template with flag `true` on success and
`(u, false)` when no identifier is found. -/
theorem convert_google_drive_url_amended (url : Str) :
    (containsSub (toLowerS url) "drive.google.com".toList = false →
      containsSub (toLowerS url) "drive.usercontent.google.com".toList = false →
      convert_google_drive_url url = (url, false)) ∧
    (containsSub (toLowerS url) "drive.usercontent.google.com".toList = true →
      containsSub (toLowerS url) "confirm=t".toList = true →
      convert_google_drive_url url = (url, false)) ∧
    ((containsSub (toLowerS url) "drive.google.com".toList = true ∨
        containsSub (toLowerS url) "drive.usercontent.google.com".toList = true) →
      (containsSub (toLowerS url) "drive.usercontent.google.com".toList = true →
        containsSub (toLowerS url) "confirm=t".toList = false) →
      convert_google_drive_url url =
        (match gdriveFileIdChain url with
          | some file_id =>
            ("https://drive.usercontent.google.com/download?id=".toList ++ file_id ++
              "&export=download&confirm=t".toList, true)
          | none => (url, false))) := by
  refine ⟨?_, ?_, ?_⟩
  · intro h1 h2
    simp only [convert_google_drive_url]
    rw [h1, h2]
    simp
  · intro h1 h2
    simp only [convert_google_drive_url]
    rw [h1, h2]
    simp
  · intro h1 h2
    cases hg : containsSub (toLowerS url) "drive.google.com".toList <;>
      cases hu : containsSub (toLowerS url) "drive.usercontent.google.com".toList <;>
      cases hc : containsSub (toLowerS url) "confirm=t".toList <;>
      simp_all [convert_google_drive_url]

/-- Witness for the amended C2 on a concrete sharing URL: the id `1A2B3C`
is extracted from the `/file/d/` form and the direct template returned. -/
theorem convert_google_drive_url_amended_witness :
    convert_google_drive_url "https://drive.google.com/file/d/1A2B3C/view?usp=sharing".toList =
      ("https://drive.usercontent.google.com/download?id=1A2B3C&export=download&confirm=t".toList,
        true) := by
  have h :=
    (convert_google_drive_url_amended
        "https://drive.google.com/file/d/1A2B3C/view?usp=sharing".toList).2.2
      (Or.inl (by decide)) (by decide)
  rw [h]
  decide

/-- C10: on input whose stripped form contains neither `http` nor
`drive.google.com` case-insensitively, `extract_gdrive_file_id` returns the
stripped input exactly when it is a nonempty run of `[a-zA-Z0-9_-]` longer
than 10 characters, and `none` otherwise; on URL-ish input whose extraction
chain fails, it returns `none` rather than the input. -/
theorem extract_gdrive_file_id_bare_and_url (input : Str) :
    (gdriveUrlLike (stripS input) = false →
      extract_gdrive_file_id input =
        (if (stripS input).all idChar && decide (10 < (stripS input).length)
          then some (stripS input) else none)) ∧
    (gdriveUrlLike (stripS input) = true → gdriveFileIdChain (stripS input) = none →
      extract_gdrive_file_id input = none) := by
  constructor
  · intro h1
    simp [extract_gdrive_file_id, h1]
  · intro h1 h2
    simp [extract_gdrive_file_id, h1, h2]

/-- Witness for C10: a bare 11-character file id surrounded by blanks is
accepted as-is; a short bare token is rejected. -/
theorem extract_gdrive_file_id_bare_and_url_witness :
    extract_gdrive_file_id "  AbCdEfGh123 ".toList = some "AbCdEfGh123".toList ∧
    extract_gdrive_file_id "short_id".toList = none := by
  constructor
  · have h := (extract_gdrive_file_id_bare_and_url "  AbCdEfGh123 ".toList).1 (by decide)
    rw [h]
    decide
  · have h := (extract_gdrive_file_id_bare_and_url "short_id".toList).1 (by decide)
    rw [h]
    decide

/-! UTF-8 codec, modelling Python's `bytes.decode('utf-8', errors=...)` and
`str.encode('utf-8')`: one decoding step consumes either a well-formed
scalar encoding or a maximal invalid subpart (WHATWG / CPython error
granularity). -/

/-- UTF-8 encoding of one scalar value. -/
def utf8EncodeChar (c : Char) : Bytes :=
  let v := c.toNat
  if v < 0x80 then [v]
  else if v < 0x800 then [0xC0 + v / 64, 0x80 + v % 64]
  else if v < 0x10000 then
    [0xE0 + v / 4096, 0x80 + (v / 64) % 64, 0x80 + v % 64]
  else
    [0xF0 + v / 262144, 0x80 + (v / 4096) % 64, 0x80 + (v / 64) % 64, 0x80 + v % 64]

/-- UTF-8 encoding of a string. -/
def utf8Encode (s : Str) : Bytes := s.flatMap utf8EncodeChar

/-- One UTF-8 decoding step on head byte `b` and tail `bs`: a decoded
scalar (or `none` for a maximal invalid subpart) and the remaining bytes. -/
def utf8Step (b : Nat) (bs : Bytes) : Option Char × Bytes :=
  if h1 : b < 0x80 then
    (some (Char.ofNatAux b (Or.inl (by omega))), bs)
  else if h2 : 0xC2 ≤ b ∧ b ≤ 0xDF then
    match bs with
    | b2 :: rest =>
      if h3 : 0x80 ≤ b2 ∧ b2 ≤ 0xBF then
        (some (Char.ofNatAux ((b - 0xC0) * 64 + (b2 - 0x80)) (Or.inl (by omega))), rest)
      else (none, b2 :: rest)
    | [] => (none, [])
  else if h4 : 0xE0 ≤ b ∧ b ≤ 0xEF then
    match bs with
    | b2 :: rest2 =>
      if h5 : (0x80 ≤ b2 ∧ b2 ≤ 0xBF) ∧ (b = 0xE0 → 0xA0 ≤ b2) ∧ (b = 0xED → b2 ≤ 0x9F) then
        match rest2 with
        | b3 :: rest3 =>
          if h6 : 0x80 ≤ b3 ∧ b3 ≤ 0xBF then
            (some (Char.ofNatAux ((b - 0xE0) * 4096 + (b2 - 0x80) * 64 + (b3 - 0x80))
              (by omega)), rest3)
          else (none, b3 :: rest3)
        | [] => (none, [])
      else (none, b2 :: rest2)
    | [] => (none, [])
  else if h7 : 0xF0 ≤ b ∧ b ≤ 0xF4 then
    match bs with
    | b2 :: rest2 =>
      if h8 : (0x80 ≤ b2 ∧ b2 ≤ 0xBF) ∧ (b = 0xF0 → 0x90 ≤ b2) ∧ (b = 0xF4 → b2 ≤ 0x8F) then
        match rest2 with
        | b3 :: rest3 =>
          if h9 : 0x80 ≤ b3 ∧ b3 ≤ 0xBF then
            match rest3 with
            | b4 :: rest4 =>
              if h10 : 0x80 ≤ b4 ∧ b4 ≤ 0xBF then
                (some (Char.ofNatAux
                  ((b - 0xF0) * 262144 + (b2 - 0x80) * 4096 + (b3 - 0x80) * 64 + (b4 - 0x80))
                  (by omega)), rest4)
              else (none, b4 :: rest4)
            | [] => (none, [])
          else (none, b3 :: rest3)
        | [] => (none, [])
      else (none, b2 :: rest2)
    | [] => (none, [])
  else (none, bs)

theorem utf8Step_rest_le (b : Nat) (bs : Bytes) :
    (utf8Step b bs).2.length ≤ bs.length := by
  unfold utf8Step
  repeat' split
  all_goals simp_all
  all_goals omega

/-- Fuel-driven core of the `errors='ignore'` decoder (fuel at least the
byte count makes it total on the list). -/
def utf8DecodeIgnoreAux : Nat → Bytes → Str
  | _, [] => []
  | 0, _ :: _ => []
  | fuel + 1, b :: bs =>
    match utf8Step b bs with
    | (some c, rest) => c :: utf8DecodeIgnoreAux fuel rest
    | (none, rest) => utf8DecodeIgnoreAux fuel rest

/-- Model of `bytes.decode('utf-8', errors='ignore')`: invalid subparts are
dropped. -/
def utf8DecodeIgnore (l : Bytes) : Str := utf8DecodeIgnoreAux l.length l

/-- Fuel-driven core of the `errors='strict'` decoder. -/
def utf8DecodeStrictAux : Nat → Bytes → Option Str
  | _, [] => some []
  | 0, _ :: _ => some []
  | fuel + 1, b :: bs =>
    match utf8Step b bs with
    | (some c, rest) => (utf8DecodeStrictAux fuel rest).map (fun t => c :: t)
    | (none, _) => none

/-- Model of `bytes.decode('utf-8', errors='strict')`: any invalid subpart
fails the whole decode. -/
def utf8DecodeStrict (l : Bytes) : Option Str := utf8DecodeStrictAux l.length l

/-- Fuel-driven core of the `errors='replace'` decoder. -/
def utf8DecodeReplaceAux : Nat → Bytes → Str
  | _, [] => []
  | 0, _ :: _ => []
  | fuel + 1, b :: bs =>
    match utf8Step b bs with
    | (some c, rest) => c :: utf8DecodeReplaceAux fuel rest
    | (none, rest) => '\uFFFD' :: utf8DecodeReplaceAux fuel rest

/-- Model of `bytes.decode('utf-8', errors='replace')`: each maximal
invalid subpart becomes one U+FFFD. -/
def utf8DecodeReplace (l : Bytes) : Str := utf8DecodeReplaceAux l.length l

/-! File Type Classifier: `detect_file_type_from_bytes` (source lines
497..543).  The `try/except` around the HTML probe is dead in the model: a
permissive decode, `lower` and `strip` cannot fail. -/

/-- Magic marker of Parquet files, the ASCII bytes `PAR1`. -/
def par1Magic : Bytes := "PAR1".toList.map Char.toNat

/-- The DuckDB signature substring, the ASCII bytes `DUCK`. -/
def duckMagic : Bytes := "DUCK".toList.map Char.toNat

/-- The SQLite header string, the ASCII bytes of `SQLite format 3`. -/
def sqliteMagic : Bytes := "SQLite format 3".toList.map Char.toNat

/-- The HTML probe of `detect_file_type_from_bytes`: permissively decode
the first 500 bytes, lowercase and strip; the result starts with
`<!doctype` or `<html`, or contains `<html` within its first 200
characters. -/
def htmlErrorCond (file_bytes : Bytes) : Bool :=
  let text_start := stripS (toLowerS (utf8DecodeIgnore (file_bytes.take 500)))
  "<!doctype".toList.isPrefixOf text_start || "<html".toList.isPrefixOf text_start ||
    containsSub (text_start.take 200) "<html".toList

/-- The JSON probe: the first character of the stripped sample is `{` or
`[` (an empty strip yields no first character). -/
def jsonLeadCond (st : Str) : Bool :=
  match st with
  | c :: _ => c = '\x7b' || c = '['
  | [] => false

/-- The first line of the sample: Python's
`text_sample.split('\n')[0].split('\r')[0]`. -/
def firstLineOf (text_sample : Str) : Str :=
  (text_sample.takeWhile (· != '\n')).takeWhile (· != '\r')

/-- Model of `detect_file_type_from_bytes`: classify a downloaded buffer
from magic bytes, mirroring the Python chain check for check. -/
def detect_file_type_from_bytes (file_bytes : Bytes) : Option Str :=
  if file_bytes.length < 20 then none
  else if htmlErrorCond file_bytes then some "html_error".toList
  else if file_bytes.take 4 = par1Magic ∨
      file_bytes.drop (file_bytes.length - 4) = par1Magic then some "parquet".toList
  else if containsSub (file_bytes.take 20) duckMagic then some "duckdb".toList
  else if containsSub (file_bytes.take 16) sqliteMagic then some "duckdb".toList
  else
    match utf8DecodeStrict (file_bytes.take 2048) with
    | none => none
    | some text_sample =>
      if jsonLeadCond (stripS text_sample) then some "json".toList
      else if '\n' ∉ text_sample ∧ '\r' ∉ text_sample then some "txt".toList
      else
        let first_line := firstLineOf text_sample
        if 2 ≤ first_line.count '|' then some "pipe".toList
        else if 2 ≤ first_line.count '\t' then some "tsv".toList
        else if 2 ≤ first_line.count ',' then some "csv".toList
        else some "txt".toList

/-- C8: a buffer shorter than 20 bytes is classified unknown (`none`)
whatever its content; the result is returned as data, not raised. -/
theorem detect_short_buffer_unknown (file_bytes : Bytes)
    (h : file_bytes.length < 20) :
    detect_file_type_from_bytes file_bytes = none := by
  simp [detect_file_type_from_bytes, h]

/-- Witness for C8 at a 10-byte buffer that even starts with the Parquet
magic marker. -/
theorem detect_short_buffer_unknown_witness :
    detect_file_type_from_bytes ("PAR1abcdef".toList.map Char.toNat) = none :=
  detect_short_buffer_unknown ("PAR1abcdef".toList.map Char.toNat) (by decide)

/-- C3: the HTML probe wins over every other check: a buffer of length at
least 20 satisfying the HTML condition classifies as `html_error`
regardless of any magic signature or delimiter content. -/
theorem detect_html_priority (file_bytes : Bytes)
    (hlen : 20 ≤ file_bytes.length) (hh : htmlErrorCond file_bytes = true) :
    detect_file_type_from_bytes file_bytes = some "html_error".toList := by
  simp only [detect_file_type_from_bytes, hh]
  rw [if_neg (by omega)]
  simp

/-- Witness for C3: an HTML page whose buffer also ends with the Parquet
marker and whose first line carries two commas is still `html_error`. -/
theorem detect_html_priority_witness :
    detect_file_type_from_bytes ("<!doctype html>,,PAR1".toList.map Char.toNat) =
      some "html_error".toList ∧
    ("<!doctype html>,,PAR1".toList.map Char.toNat).drop
      (("<!doctype html>,,PAR1".toList.map Char.toNat).length - 4) = par1Magic ∧
    2 ≤ (firstLineOf "<!doctype html>,,PAR1".toList).count ',' :=
  ⟨detect_html_priority ("<!doctype html>,,PAR1".toList.map Char.toNat)
      (by decide) (by decide),
    by decide, by decide⟩

/-- C7: for buffers of length at least 20 that fail the HTML probe, the
Parquet marker at either end classifies `parquet`; failing that, `DUCK`
within the first 20 bytes classifies `duckdb`; and `SQLite format 3`
within the first 16 bytes also classifies `duckdb`. -/
theorem detect_magic_signatures (file_bytes : Bytes)
    (hlen : 20 ≤ file_bytes.length) (hh : htmlErrorCond file_bytes = false) :
    ((file_bytes.take 4 = par1Magic ∨
        file_bytes.drop (file_bytes.length - 4) = par1Magic) →
      detect_file_type_from_bytes file_bytes = some "parquet".toList) ∧
    (file_bytes.take 4 ≠ par1Magic →
      file_bytes.drop (file_bytes.length - 4) ≠ par1Magic →
      containsSub (file_bytes.take 20) duckMagic = true →
      detect_file_type_from_bytes file_bytes = some "duckdb".toList) ∧
    (file_bytes.take 4 ≠ par1Magic →
      file_bytes.drop (file_bytes.length - 4) ≠ par1Magic →
      containsSub (file_bytes.take 16) sqliteMagic = true →
      detect_file_type_from_bytes file_bytes = some "duckdb".toList) := by
  refine ⟨?_, ?_, ?_⟩
  · intro hp
    simp only [detect_file_type_from_bytes, hh]
    rw [if_neg (by omega)]
    simp only [Bool.false_eq_true, if_false]
    rw [if_pos hp]
  · intro hp1 hp2 hd
    simp only [detect_file_type_from_bytes, hh]
    rw [if_neg (by omega)]
    simp only [Bool.false_eq_true, if_false]
    rw [if_neg (not_or.mpr ⟨hp1, hp2⟩), if_pos hd]
  · intro hp1 hp2 hs
    simp only [detect_file_type_from_bytes, hh]
    rw [if_neg (by omega)]
    simp only [Bool.false_eq_true, if_false]
    rw [if_neg (not_or.mpr ⟨hp1, hp2⟩)]
    cases hd : containsSub (file_bytes.take 20) duckMagic <;> simp [hs]

/-- Witness for C7: a Parquet-headed buffer, a `DUCK`-headed buffer and an
SQLite-headed buffer of 20 bytes each. -/
theorem detect_magic_signatures_witness :
    detect_file_type_from_bytes ("PAR1aaaaaaaaaaaaaaaa".toList.map Char.toNat) =
      some "parquet".toList ∧
    detect_file_type_from_bytes ("aaDUCKaaaaaaaaaaaaaa".toList.map Char.toNat) =
      some "duckdb".toList ∧
    detect_file_type_from_bytes ("SQLite format 3aaaaa".toList.map Char.toNat) =
      some "duckdb".toList :=
  ⟨(detect_magic_signatures ("PAR1aaaaaaaaaaaaaaaa".toList.map Char.toNat)
      (by decide) (by decide)).1 (Or.inl (by decide)),
   (detect_magic_signatures ("aaDUCKaaaaaaaaaaaaaa".toList.map Char.toNat)
      (by decide) (by decide)).2.1 (by decide) (by decide) (by decide),
   (detect_magic_signatures ("SQLite format 3aaaaa".toList.map Char.toNat)
      (by decide) (by decide)).2.2 (by decide) (by decide) (by decide)⟩

/-- C4: a buffer that reaches the delimiter-counting step (length at least
20, not HTML, no magic signature, strict-decodable sample, not
JSON-leading, sample containing a newline or carriage return) classifies
by counting `|`, tab and `,` on the first line with threshold 2, `pipe`
before `tsv` before `csv`, defaulting to `txt`; in particular one comma
alone yields `txt`, not `csv`. -/
theorem detect_delimiter_thresholds (file_bytes : Bytes)
    (hlen : 20 ≤ file_bytes.length)
    (hh : htmlErrorCond file_bytes = false)
    (hp1 : file_bytes.take 4 ≠ par1Magic)
    (hp2 : file_bytes.drop (file_bytes.length - 4) ≠ par1Magic)
    (hd : containsSub (file_bytes.take 20) duckMagic = false)
    (hs : containsSub (file_bytes.take 16) sqliteMagic = false)
    (text_sample : Str)
    (hdec : utf8DecodeStrict (file_bytes.take 2048) = some text_sample)
    (hjson : jsonLeadCond (stripS text_sample) = false)
    (hnl : '\n' ∈ text_sample ∨ '\r' ∈ text_sample) :
    detect_file_type_from_bytes file_bytes =
      (if 2 ≤ (firstLineOf text_sample).count '|' then some "pipe".toList
        else if 2 ≤ (firstLineOf text_sample).count '\t' then some "tsv".toList
        else if 2 ≤ (firstLineOf text_sample).count ',' then some "csv".toList
        else some "txt".toList) ∧
    ((firstLineOf text_sample).count '|' = 0 → (firstLineOf text_sample).count '\t' = 0 →
      (firstLineOf text_sample).count ',' = 1 →
      detect_file_type_from_bytes file_bytes = some "txt".toList) := by
  have hmain : detect_file_type_from_bytes file_bytes =
      (if 2 ≤ (firstLineOf text_sample).count '|' then some "pipe".toList
        else if 2 ≤ (firstLineOf text_sample).count '\t' then some "tsv".toList
        else if 2 ≤ (firstLineOf text_sample).count ',' then some "csv".toList
        else some "txt".toList) := by
    simp only [detect_file_type_from_bytes, hh, hd, hs, hdec]
    rw [if_neg (by omega)]
    simp only [Bool.false_eq_true, if_false]
    rw [if_neg (not_or.mpr ⟨hp1, hp2⟩)]
    simp only [hjson, Bool.false_eq_true, if_false]
    rw [if_neg (by tauto)]
  refine ⟨hmain, fun h1 h2 h3 => ?_⟩
  rw [hmain, if_neg (by omega), if_neg (by omega), if_neg (by omega)]

/-- Witness for C4: a two-comma first line classifies `csv`; a first line
with a single comma and no other delimiter classifies `txt`. -/
theorem detect_delimiter_thresholds_witness :
    detect_file_type_from_bytes ("a,b,c\nrest of the file".toList.map Char.toNat) =
      some "csv".toList ∧
    detect_file_type_from_bytes ("a,b\nrest of the file xx".toList.map Char.toNat) =
      some "txt".toList := by
  constructor
  · have h := (detect_delimiter_thresholds ("a,b,c\nrest of the file".toList.map Char.toNat)
      (by decide) (by decide) (by decide) (by decide) (by decide) (by decide)
      "a,b,c\nrest of the file".toList (by decide) (by decide)
      (Or.inl (by decide))).1
    rw [h]
    decide
  · have h := (detect_delimiter_thresholds ("a,b\nrest of the file xx".toList.map Char.toNat)
      (by decide) (by decide) (by decide) (by decide) (by decide) (by decide)
      "a,b\nrest of the file xx".toList (by decide) (by decide)
      (Or.inl (by decide))).2 (by decide) (by decide) (by decide)
    exact h

/-! Model of the `urllib.parse` functions `convert_dropbox_url` uses:
`quote_plus`/`unquote` (utf-8, `errors='replace'`), `parse_qsl`/`parse_qs`,
`urlencode(doseq=True)`, `urlparse` and `urlunparse`.  CPython's `unquote`
accumulates the bytes of consecutive `%XX` escapes and decodes them
together; a `%` not followed by two hex digits stays literal. -/

/-- Characters `quote` never escapes: ASCII letters, digits and `_.-~`. -/
def quoteSafeChar (c : Char) : Bool :=
  decide (('a' ≤ c ∧ c ≤ 'z') ∨ ('A' ≤ c ∧ c ≤ 'Z') ∨ ('0' ≤ c ∧ c ≤ '9') ∨
    c = '_' ∨ c = '.' ∨ c = '-' ∨ c = '~')

/-- Uppercase hexadecimal digit of a nibble. -/
def hexDigitChar (n : Nat) : Char :=
  if h : n % 16 < 10 then Char.ofNatAux (48 + n % 16) (Or.inl (by omega))
  else Char.ofNatAux (55 + n % 16) (Or.inl (by omega))

/-- Percent-escape of a byte sequence, `%XX` with uppercase hex. -/
def percentEncode (bs : Bytes) : Str :=
  bs.flatMap (fun b => ['%', hexDigitChar (b / 16), hexDigitChar (b % 16)])

/-- Model of `urllib.parse.quote_plus` with `safe=''`: safe characters are
kept, a space becomes `+`, anything else percent-escapes its UTF-8
bytes. -/
def quotePlus (s : Str) : Str :=
  s.flatMap (fun c =>
    if c = ' ' then ['+']
    else if quoteSafeChar c then [c]
    else percentEncode (utf8EncodeChar c))

/-- Hexadecimal value of a character, either case. -/
def hexVal (c : Char) : Option Nat :=
  if '0' ≤ c ∧ c ≤ '9' then some (c.toNat - 48)
  else if 'A' ≤ c ∧ c ≤ 'F' then some (c.toNat - 55)
  else if 'a' ≤ c ∧ c ≤ 'f' then some (c.toNat - 87)
  else none

/-- Core of `unquote`: collect the bytes of consecutive `%XX` escapes in
`acc` and decode each maximal run as UTF-8 with `errors='replace'`; other
characters are literal and flush the run. -/
def unquoteAux (acc : Bytes) : Str → Str
  | [] => utf8DecodeReplace acc
  | c :: c1 :: c2 :: rest =>
    if c = '%' then
      match hexVal c1, hexVal c2 with
      | some hi, some lo => unquoteAux (acc ++ [16 * hi + lo]) rest
      | _, _ => utf8DecodeReplace acc ++ '%' :: unquoteAux [] (c1 :: c2 :: rest)
    else utf8DecodeReplace acc ++ c :: unquoteAux [] (c1 :: c2 :: rest)
  | c :: rest =>
    if c = '%' then utf8DecodeReplace acc ++ '%' :: unquoteAux [] rest
    else utf8DecodeReplace acc ++ c :: unquoteAux [] rest

/-- Model of the `unquote_plus` step of `parse_qsl`: `+` becomes a space,
then percent-escapes are decoded. -/
def unquotePlus (s : Str) : Str :=
  unquoteAux [] (s.map (fun c => if c = '+' then ' ' else c))

/-- Python `s.split(sep)` for a one-character separator. -/
def splitAllOn (sep : Char) : Str → List Str
  | [] => [[]]
  | c :: rest =>
    if c = sep then [] :: splitAllOn sep rest
    else
      match splitAllOn sep rest with
      | h :: t => (c :: h) :: t
      | [] => [[c]]

/-- Split at the first occurrence of `sep`, when there is one. -/
def splitFirstOn (sep : Char) : Str → Option (Str × Str)
  | [] => none
  | c :: rest =>
    if c = sep then some ([], rest)
    else (splitFirstOn sep rest).map (fun p => (c :: p.1, p.2))

/-- Model of `urllib.parse.parse_qsl` with default arguments: split on
`&`, skip empty pieces, pieces without `=` and pieces with an empty value;
percent-decode names and values. -/
def parse_qsl (qs : Str) : List (Str × Str) :=
  (splitAllOn '&' qs).filterMap (fun piece =>
    match splitFirstOn '=' piece with
    | none => none
    | some (n, v) =>
      if v = [] then none else some (unquotePlus n, unquotePlus v))

/-- Append a value under a key in an ordered association list, the
`parse_qs` dict semantics. -/
def dictAppend (d : List (Str × List Str)) (k : Str) (v : Str) :
    List (Str × List Str) :=
  match d with
  | [] => [(k, [v])]
  | (k0, vs) :: rest =>
    if k0 = k then (k0, vs ++ [v]) :: rest
    else (k0, vs) :: dictAppend rest k v

/-- Model of `urllib.parse.parse_qs`. -/
def parse_qs (qs : Str) : List (Str × List Str) :=
  (parse_qsl qs).foldl (fun d p => dictAppend d p.1 p.2) []

/-- Python `dict.get(k, default)` on the ordered association list. -/
def dictGet (d : List (Str × List Str)) (k : Str) (dflt : List Str) : List Str :=
  match d with
  | [] => dflt
  | (k0, vs) :: rest => if k0 = k then vs else dictGet rest k dflt

/-- Python `d[k] = vs`: replace in place, or append a new key at the
end. -/
def dictSet (d : List (Str × List Str)) (k : Str) (vs : List Str) :
    List (Str × List Str) :=
  match d with
  | [] => [(k, vs)]
  | (k0, vs0) :: rest =>
    if k0 = k then (k0, vs) :: rest else (k0, vs0) :: dictSet rest k vs

/-- Python `'&'.join(l)`. -/
def joinAmp : List Str → Str
  | [] => []
  | [p] => p
  | p :: ps => p ++ '&' :: joinAmp ps

/-- Model of `urllib.parse.urlencode(query, doseq=True)` over a dict of
string lists. -/
def urlencode (d : List (Str × List Str)) : Str :=
  joinAmp (d.flatMap (fun kv => kv.2.map (fun v => quotePlus kv.1 ++ '=' :: quotePlus v)))

/-- The six components `urlparse` produces. -/
structure UrlParts where
  scheme : Str
  netloc : Str
  path : Str
  params : Str
  query : Str
  fragment : Str
deriving DecidableEq, Repr

/-- Scheme characters of `urllib.parse`: letters (codepoints 97..122 and
65..90), digits (48..57), `+` (43), `-` (45), `.` (46). -/
def schemeChar (c : Char) : Bool :=
  decide ((97 ≤ c.toNat ∧ c.toNat ≤ 122) ∨ (65 ≤ c.toNat ∧ c.toNat ≤ 90) ∨
    (48 ≤ c.toNat ∧ c.toNat ≤ 57) ∨ c.toNat = 43 ∨ c.toNat = 45 ∨ c.toNat = 46)

/-- One-character `str.isascii() and str.isalpha()` (codepoints 97..122
and 65..90). -/
def asciiAlpha (c : Char) : Bool :=
  decide ((97 ≤ c.toNat ∧ c.toNat ≤ 122) ∨ (65 ≤ c.toNat ∧ c.toNat ≤ 90))

/-- The unsafe characters CPython removes from a URL before splitting. -/
def removeUnsafe (s : Str) : Str :=
  s.filter (fun c => c != '\t' && c != '\r' && c != '\n')

/-- Scheme extraction of `urlsplit`: the text before the first `:` when
nonempty, starting with an ASCII letter and made of scheme characters; the
scheme is lowercased. -/
def splitScheme (s : Str) : Str × Str :=
  match splitFirstOn ':' s with
  | none => ([], s)
  | some (pre, post) =>
    match pre with
    | [] => ([], s)
    | c0 :: _ =>
      if asciiAlpha c0 && pre.all schemeChar then (toLowerS pre, post) else ([], s)

/-- The characters that terminate a netloc. -/
def netStop (c : Char) : Bool := c = '/' || c = '?' || c = '#'

/-- Split at the last occurrence of `sep`, when there is one. -/
def splitLastOn (sep : Char) (s : Str) : Option (Str × Str) :=
  (splitFirstOn sep s.reverse).map (fun p => (p.2.reverse, p.1.reverse))

/-- Model of `urllib.parse._splitparams`: parameters after the `;` of the
last path segment. -/
def splitParams (s : Str) : Str × Str :=
  match splitLastOn '/' s with
  | some (pre, post) =>
    match splitFirstOn ';' post with
    | some (p1, p2) => (pre ++ '/' :: p1, p2)
    | none => (s, [])
  | none =>
    match splitFirstOn ';' s with
    | some (p1, p2) => (p1, p2)
    | none => (s, [])

/-- The schemes `urlparse` splits parameters for. -/
def usesParams : List Str :=
  ["", "ftp", "hdl", "prospero", "http", "imap", "https", "shttp", "rtsp",
    "rtspu", "sip", "sips", "mms", "sftp", "tel"].map String.toList

/-- The netloc stage of `urlsplit`: after a leading `//`, the netloc runs
to the first of `/`, `?`, `#`. -/
def splitNetlocStage (rest0 : Str) : Str × Str :=
  if "//".toList.isPrefixOf rest0 then
    ((rest0.drop 2).takeWhile (fun c => !(netStop c)),
      (rest0.drop 2).dropWhile (fun c => !(netStop c)))
  else ([], rest0)

/-- The fragment stage: split at the first `#`, when there is one. -/
def splitFragStage (rest1 : Str) : Str × Str :=
  match splitFirstOn '#' rest1 with
  | some (a, b) => (a, b)
  | none => (rest1, [])

/-- The query stage: split at the first `?`, when there is one. -/
def splitQueryStage (rest2 : Str) : Str × Str :=
  match splitFirstOn '?' rest2 with
  | some (a, b) => (a, b)
  | none => (rest2, [])

/-- The parameters stage of `urlparse`: split only for schemes using
parameters and only when a `;` is present. -/
def splitParamsStage (scheme rest3 : Str) : Str × Str :=
  if decide (scheme ∈ usesParams) && rest3.contains ';' then splitParams rest3
  else (rest3, [])

/-- Model of `urllib.parse.urlparse` before its bracket validity check:
remove unsafe characters, split scheme, netloc after `//`, fragment at
the first `#`, query at the first `?`, then parameters. -/
def urlsplitRaw (url : Str) : UrlParts :=
  let url0 := removeUnsafe url
  let sp := splitScheme url0
  let nl := splitNetlocStage sp.2
  let fr := splitFragStage nl.2
  let qr := splitQueryStage fr.1
  let pp := splitParamsStage sp.1 qr.1
  ⟨sp.1, nl.1, pp.1, pp.2, qr.2, fr.2⟩

/-- The unbalanced-bracket condition of `urlsplit`'s classic IPv6
validation (`ValueError: Invalid IPv6 URL`). -/
def bracketsUnbalanced (netloc : Str) : Bool :=
  (netloc.contains '[' && !(netloc.contains ']')) ||
    (netloc.contains ']' && !(netloc.contains '['))

/-- Model of `urllib.parse.urlparse`; the bracket `ValueError` is the
error case. -/
def urlparse (url : Str) : Except Unit UrlParts :=
  let p := urlsplitRaw url
  if bracketsUnbalanced p.netloc then .error () else .ok p

/-- Model of `urllib.parse.urlunparse` composed with `urlunsplit`. -/
def urlunparse (scheme netloc path params query fragment : Str) : Str :=
  let u0 := path ++ (if params = [] then [] else ';' :: params)
  let u1 :=
    if netloc ≠ [] ∨ (u0 ≠ [] ∧ "//".toList.isPrefixOf u0) then
      "//".toList ++ netloc ++
        (if u0 ≠ [] ∧ ¬ ("/".toList.isPrefixOf u0) then '/' :: u0 else u0)
    else u0
  let u2 := if scheme = [] then u1 else scheme ++ ':' :: u1
  let u3 := if query = [] then u2 else u2 ++ '?' :: query
  if fragment = [] then u3 else u3 ++ '#' :: fragment

/-- Model of `convert_dropbox_url` (source lines 400..420): non-Dropbox
URLs pass through, a query whose `dl` is already `1` is returned
unchanged, otherwise `dl` is set to `1` and the URL reassembled.  The
bracket `ValueError` of `urlparse` propagates as the error case. -/
def convert_dropbox_url (url : Str) : Except Unit (Str × Bool) :=
  if !(containsSub (toLowerS url) "dropbox.com".toList) then .ok (url, false)
  else
    match urlparse url with
    | .error e => .error e
    | .ok parsed =>
      let query_params := parse_qs parsed.query
      if (dictGet query_params "dl".toList ["0".toList]).headD [] = "1".toList then
        .ok (url, false)
      else
        .ok (urlunparse parsed.scheme parsed.netloc parsed.path parsed.params
          (urlencode (dictSet query_params "dl".toList ["1".toList]))
          parsed.fragment, true)

instance {e a : Type} [DecidableEq e] [DecidableEq a] : DecidableEq (Except e a) :=
  fun x y =>
    match x, y with
    | .error u, .error v =>
      if h : u = v then isTrue (by rw [h]) else isFalse (fun hh => by cases hh; exact h rfl)
    | .ok u, .ok v =>
      if h : u = v then isTrue (by rw [h]) else isFalse (fun hh => by cases hh; exact h rfl)
    | .error _, .ok _ => isFalse (fun hh => by cases hh)
    | .ok _, .error _ => isFalse (fun hh => by cases hh)

/-- The spec's ordered decision table for `needsProxy`, written from the
spec's words (rules 1..5, first match wins): providers are the spec's
substring matches, and rule 3 tests `/releases/` against the URL's path
component, as the spec's rule 3 says. -/
def needsProxySpec (url : Str) (isPrivate : Bool) : ProxyDecision :=
  if isPrivate && providerGitHub url then .privateProxy
  else if isPrivate then .none
  else if containsSub (toLowerS url) "github.com".toList &&
      containsSub (toLowerS (urlsplitRaw url).path) "/releases/".toList then
    .publicProxy
  else if providerGoogleDrive url || providerDropbox url then .publicProxy
  else .none

/-- The decision table with rule 3's release test widened from the path to
the whole URL, which is what the code's substring search does. -/
def needsProxySpecWide (url : Str) (isPrivate : Bool) : ProxyDecision :=
  if isPrivate && providerGitHub url then .privateProxy
  else if isPrivate then .none
  else if containsSub (toLowerS url) "github.com".toList &&
      containsSub (toLowerS url) "/releases/".toList then .publicProxy
  else if providerGoogleDrive url || providerDropbox url then .publicProxy
  else .none

/-- C1 counterexample: at `https://github.com/a?x=/releases/` the literal
`/releases/` sits in the query string, not in the path, so the spec's
table (whose rule 3 reads the path) answers `None`, while the code, which
searches the whole URL, routes the fetch through the public proxy. -/
theorem needs_proxy_path_counterexample :
    needsProxyDecision "https://github.com/a?x=/releases/".toList false =
      ProxyDecision.publicProxy ∧
    needsProxySpec "https://github.com/a?x=/releases/".toList false =
      ProxyDecision.none := by
  constructor <;> decide

/-- C1 amended: `needs_proxy`, lifted to a proxy decision the way its
callers use it, implements the spec's ordered decision table with rule 3's
release test widened from the path to the whole URL: with `is_private`,
`PrivateProxy` exactly on GitHub URLs and `None` otherwise; without it,
`PublicProxy` when the URL contains `github.com` and `/releases/` anywhere
in the URL (not only in the path), `PublicProxy` on Google Drive or
Dropbox URLs, and `None` in every other case, first rule winning. -/
theorem needs_proxy_implements_widened_table (url : Str) (is_private : Bool) :
    needsProxyDecision url is_private = needsProxySpecWide url is_private := by
  unfold needsProxyDecision needsProxySpecWide needs_proxy is_github_url
    providerGitHub providerGoogleDrive providerDropbox
  cases is_private <;>
    simp only [toLowerS_toLowerS, Bool.false_and, Bool.true_and, if_false, if_true]
  all_goals
    cases containsSub (toLowerS url) "github.com".toList <;>
    cases containsSub (toLowerS url) "raw.githubusercontent.com".toList <;>
    cases containsSub (toLowerS url) "/releases/".toList <;>
    cases containsSub (toLowerS url) "drive.google.com".toList <;>
    cases containsSub (toLowerS url) "drive.usercontent.google.com".toList <;>
    cases containsSub (toLowerS url) "dropbox.com".toList <;> simp

/-- C9 counterexample: `convert_dropbox_url` is not total — on the
malformed URL `http://[dropbox.com/a` the `urlparse` call raises
`ValueError: Invalid IPv6 URL` (an unbalanced bracket in the authority),
so the claimed exception-freedom of every Link Resolver function fails. -/
theorem convert_dropbox_url_bracket_counterexample :
    convert_dropbox_url "http://[dropbox.com/a".toList = Except.error () := by
  decide

/-- C9 amended: every Link Resolver function except `convert_dropbox_url`
is total by construction; `convert_dropbox_url` raises (the
`Invalid IPv6 URL` check of `urlparse`, which CPython runs before any
further netloc validation) whenever the URL contains `dropbox.com`
case-insensitively and the parsed authority carries an unbalanced square
bracket, and it returns the URL unchanged without error whenever the URL
does not contain `dropbox.com` at all. -/
theorem convert_dropbox_url_error_cases (url : Str) :
    (containsSub (toLowerS url) "dropbox.com".toList = true →
      bracketsUnbalanced (urlsplitRaw url).netloc = true →
      convert_dropbox_url url = Except.error ()) ∧
    (containsSub (toLowerS url) "dropbox.com".toList = false →
      convert_dropbox_url url = Except.ok (url, false)) := by
  constructor
  · intro h1 h2
    unfold convert_dropbox_url
    rw [h1]
    simp only [Bool.not_true, Bool.false_eq_true, if_false]
    simp only [urlparse]
    rw [h2]
    simp
  · intro h1
    unfold convert_dropbox_url
    rw [h1]
    simp

/-! Round-trip lemmas: `unquote_plus` is a left inverse of `quote_plus`,
through the UTF-8 codec. -/

theorem char_eq_of_toNat_eq {a b : Char} (h : a.toNat = b.toNat) : a = b := by
  apply Char.ext
  exact UInt32.toNat.inj h

theorem mem_utf8EncodeChar_lt {x : Nat} {c : Char} (h : x ∈ utf8EncodeChar c) :
    x < 256 := by
  have hv : c.toNat < 0xd800 ∨ (0xdfff < c.toNat ∧ c.toNat < 0x110000) := c.valid
  by_cases h1 : c.toNat < 0x80 <;> by_cases h2 : c.toNat < 0x800 <;>
    by_cases h3 : c.toNat < 0x10000 <;>
    simp [utf8EncodeChar, h1, h2, h3] at h <;> omega

theorem utf8Step_enc (c : Char) (rest : Bytes) :
    ∃ b0 bt, utf8EncodeChar c = b0 :: bt ∧ utf8Step b0 (bt ++ rest) = (some c, rest) := by
  have hv : c.toNat < 0xd800 ∨ (0xdfff < c.toNat ∧ c.toNat < 0x110000) := c.valid
  unfold utf8EncodeChar
  by_cases h1 : c.toNat < 0x80
  · refine ⟨c.toNat, [], by simp [h1], ?_⟩
    unfold utf8Step
    rw [dif_pos h1]
    simp only [List.nil_append, Prod.mk.injEq, and_true]
    exact congrArg some (char_eq_of_toNat_eq (by rw [toNat_ofNatAux]))
  · by_cases h2 : c.toNat < 0x800
    · refine ⟨0xC0 + c.toNat / 64, [0x80 + c.toNat % 64], by simp [h1, h2], ?_⟩
      unfold utf8Step
      rw [dif_neg (by omega), dif_pos (by omega)]
      simp only [List.cons_append, List.nil_append]
      rw [dif_pos (by omega)]
      simp only [Prod.mk.injEq, and_true]
      exact congrArg some (char_eq_of_toNat_eq (by rw [toNat_ofNatAux]; omega))
    · by_cases h3 : c.toNat < 0x10000
      · refine ⟨0xE0 + c.toNat / 4096,
          [0x80 + c.toNat / 64 % 64, 0x80 + c.toNat % 64], by simp [h1, h2, h3], ?_⟩
        unfold utf8Step
        rw [dif_neg (by omega), dif_neg (by omega), dif_pos (by omega)]
        simp only [List.cons_append, List.nil_append]
        rw [dif_pos (by omega)]
        rw [dif_pos (by omega)]
        simp only [Prod.mk.injEq, and_true]
        exact congrArg some (char_eq_of_toNat_eq (by rw [toNat_ofNatAux]; omega))
      · refine ⟨0xF0 + c.toNat / 262144,
          [0x80 + c.toNat / 4096 % 64, 0x80 + c.toNat / 64 % 64, 0x80 + c.toNat % 64],
          by simp [h1, h2, h3], ?_⟩
        unfold utf8Step
        rw [dif_neg (by omega), dif_neg (by omega), dif_neg (by omega), dif_pos (by omega)]
        simp only [List.cons_append, List.nil_append]
        rw [dif_pos (by omega)]
        rw [dif_pos (by omega)]
        rw [dif_pos (by omega)]
        simp only [Prod.mk.injEq, and_true]
        exact congrArg some (char_eq_of_toNat_eq (by rw [toNat_ofNatAux]; omega))

theorem utf8EncodeChar_ne_nil (c : Char) : utf8EncodeChar c ≠ [] := by
  obtain ⟨b0, bt, he, _⟩ := utf8Step_enc c []
  simp [he]

theorem utf8DecodeReplaceAux_encode :
    ∀ (cs : Str) (fuel : Nat), (utf8Encode cs).length ≤ fuel →
      utf8DecodeReplaceAux fuel (utf8Encode cs) = cs := by
  intro cs
  induction cs with
  | nil => intro fuel _; cases fuel <;> rfl
  | cons c cs ih =>
    intro fuel hf
    obtain ⟨b0, bt, he, hs⟩ := utf8Step_enc c (utf8Encode cs)
    have henc : utf8Encode (c :: cs) = b0 :: (bt ++ utf8Encode cs) := by
      simp [utf8Encode, he]
    rw [henc]
    rw [henc] at hf
    cases fuel with
    | zero => simp at hf
    | succ f =>
      simp only [utf8DecodeReplaceAux, hs]
      rw [ih f (by simp at hf; omega)]

theorem utf8DecodeReplace_encode (cs : Str) :
    utf8DecodeReplace (utf8Encode cs) = cs :=
  utf8DecodeReplaceAux_encode cs _ (Nat.le_refl _)

theorem char_le_iff_toNat {a b : Char} : a ≤ b ↔ a.toNat ≤ b.toNat := Iff.rfl

theorem hexVal_hexDigitChar (n : Nat) : hexVal (hexDigitChar n) = some (n % 16) := by
  unfold hexDigitChar
  by_cases h : n % 16 < 10
  · rw [dif_pos h]
    unfold hexVal
    rw [if_pos]
    · rw [toNat_ofNatAux]
      congr 1
      omega
    · constructor
      · rw [char_le_iff_toNat, toNat_ofNatAux, show '0'.toNat = 48 from rfl]
        omega
      · rw [char_le_iff_toNat, toNat_ofNatAux, show '9'.toNat = 57 from rfl]
        omega
  · rw [dif_neg h]
    unfold hexVal
    rw [if_neg, if_pos]
    · rw [toNat_ofNatAux]
      congr 1
      omega
    · constructor
      · rw [char_le_iff_toNat, toNat_ofNatAux, show 'A'.toNat = 65 from rfl]
        omega
      · rw [char_le_iff_toNat, toNat_ofNatAux, show 'F'.toNat = 70 from rfl]
        omega
    · intro hcon
      obtain ⟨_, hc2⟩ := hcon
      rw [char_le_iff_toNat, toNat_ofNatAux, show '9'.toNat = 57 from rfl] at hc2
      omega

theorem unquoteAux_nil (acc : Bytes) : unquoteAux acc [] = utf8DecodeReplace acc := rfl

theorem unquoteAux_cons_ne (acc : Bytes) (c : Char) (rest : Str) (h : c ≠ '%') :
    unquoteAux acc (c :: rest) =
      utf8DecodeReplace acc ++ c :: unquoteAux [] rest := by
  match rest with
  | [] => simp [unquoteAux, h]
  | [x] => simp [unquoteAux, h]
  | x :: y :: t => simp [unquoteAux, h]

theorem unquoteAux_percent (acc : Bytes) (c1 c2 : Char) (rest : Str)
    (hi lo : Nat) (h1 : hexVal c1 = some hi) (h2 : hexVal c2 = some lo) :
    unquoteAux acc ('%' :: c1 :: c2 :: rest) =
      unquoteAux (acc ++ [16 * hi + lo]) rest := by
  simp [unquoteAux, h1, h2]

theorem unquoteAux_percentEncode (bs : Bytes) :
    ∀ (acc : Bytes) (t : Str), (∀ b ∈ bs, b < 256) →
      unquoteAux acc (percentEncode bs ++ t) = unquoteAux (acc ++ bs) t := by
  induction bs with
  | nil => intro acc t _; simp [percentEncode]
  | cons b bs ih =>
    intro acc t hb
    have hb0 : b < 256 := hb b (by simp)
    have hpe : percentEncode (b :: bs) ++ t =
        '%' :: hexDigitChar (b / 16) :: hexDigitChar (b % 16) :: (percentEncode bs ++ t) := by
      simp [percentEncode]
    rw [hpe, unquoteAux_percent _ _ _ _ _ _ (hexVal_hexDigitChar _) (hexVal_hexDigitChar _)]
    have hbyte : 16 * (b / 16 % 16) + b % 16 % 16 = b := by omega
    rw [hbyte, ih (acc ++ [b]) t (fun x hx => hb x (by simp [hx]))]
    simp

/-- The shape of `quote_plus` output after `+` is turned back into a
space: kept characters stay, everything else is its percent-escape. -/
def quotePlusRaw (s : Str) : Str :=
  s.flatMap (fun c =>
    if c = ' ' ∨ quoteSafeChar c = true then [c]
    else percentEncode (utf8EncodeChar c))

theorem hexDigitChar_ne (n : Nat) (x : Char)
    (hx : x.toNat < 48 ∨ (57 < x.toNat ∧ x.toNat < 65) ∨ 70 < x.toNat) :
    hexDigitChar n ≠ x := by
  intro hc
  have ht := congrArg Char.toNat hc
  unfold hexDigitChar at ht
  split at ht <;> (rw [toNat_ofNatAux] at ht; omega)

theorem percentEncode_no_plus (bs : Bytes) :
    ∀ x ∈ percentEncode bs, x ≠ '+' := by
  intro x hx
  unfold percentEncode at hx
  rw [List.mem_flatMap] at hx
  obtain ⟨b, _, hmem⟩ := hx
  simp only [List.mem_cons, List.not_mem_nil, or_false] at hmem
  rcases hmem with h | h | h
  · subst h; decide
  · subst h
    intro hc
    exact hexDigitChar_ne _ '+' (by rw [show '+'.toNat = 43 from rfl]; omega) hc
  · subst h
    intro hc
    exact hexDigitChar_ne _ '+' (by rw [show '+'.toNat = 43 from rfl]; omega) hc

theorem plusToSpace_quotePlus (s : Str) :
    (quotePlus s).map (fun c => if c = '+' then ' ' else c) = quotePlusRaw s := by
  induction s with
  | nil => rfl
  | cons c s ih =>
    have hqp : quotePlus (c :: s) =
        (if c = ' ' then ['+']
         else if quoteSafeChar c then [c]
         else percentEncode (utf8EncodeChar c)) ++ quotePlus s := by
      simp [quotePlus]
    have hraw : quotePlusRaw (c :: s) =
        (if c = ' ' ∨ quoteSafeChar c = true then [c]
         else percentEncode (utf8EncodeChar c)) ++ quotePlusRaw s := by
      simp [quotePlusRaw]
    rw [hqp, hraw, List.map_append, ih]
    congr 1
    by_cases hsp : c = ' '
    · simp [hsp]
    · by_cases hsafe : quoteSafeChar c = true
      · have hplus : c ≠ '+' := by
          intro hc
          rw [hc] at hsafe
          exact absurd hsafe (by decide)
        simp [hsp, hsafe, hplus]
      · rw [if_neg hsp, if_neg hsafe, if_neg (by simp [hsp, hsafe])]
        have hmap : ∀ x ∈ percentEncode (utf8EncodeChar c),
            (if x = '+' then ' ' else x) = x :=
          fun x hx => if_neg (percentEncode_no_plus _ x hx)
        calc (percentEncode (utf8EncodeChar c)).map (fun x => if x = '+' then ' ' else x)
            = (percentEncode (utf8EncodeChar c)).map (fun x => x) :=
              List.map_congr_left hmap
          _ = percentEncode (utf8EncodeChar c) := List.map_id' _

theorem unquoteAux_quotePlusRaw : ∀ (s cs : Str),
    unquoteAux (utf8Encode cs) (quotePlusRaw s) = cs ++ s := by
  intro s
  induction s with
  | nil =>
    intro cs
    simp [quotePlusRaw, unquoteAux_nil, utf8DecodeReplace_encode]
  | cons c s ih =>
    intro cs
    by_cases hk : c = ' ' ∨ quoteSafeChar c = true
    · have hc : c ≠ '%' := by
        rcases hk with h | h
        · subst h; decide
        · intro hc
          subst hc
          exact absurd h (by decide)
      have hshape : quotePlusRaw (c :: s) = c :: quotePlusRaw s := by
        simp [quotePlusRaw, hk]
      rw [hshape, unquoteAux_cons_ne _ _ _ hc, utf8DecodeReplace_encode]
      have h2 := ih []
      rw [show utf8Encode ([] : Str) = [] from rfl] at h2
      rw [h2]
      simp
    · have hshape : quotePlusRaw (c :: s) =
          percentEncode (utf8EncodeChar c) ++ quotePlusRaw s := by
        simp [quotePlusRaw, hk]
      rw [hshape,
        unquoteAux_percentEncode _ _ _ (fun b hb => mem_utf8EncodeChar_lt hb)]
      have henc : utf8Encode cs ++ utf8EncodeChar c = utf8Encode (cs ++ [c]) := by
        simp [utf8Encode]
      rw [henc, ih (cs ++ [c])]
      simp

/-- Round-trip: `unquote_plus` undoes `quote_plus` on every string. -/
theorem unquotePlus_quotePlus (s : Str) : unquotePlus (quotePlus s) = s := by
  unfold unquotePlus
  rw [plusToSpace_quotePlus]
  have h := unquoteAux_quotePlusRaw s []
  rw [show utf8Encode ([] : Str) = [] from rfl] at h
  simpa using h

/-! Splitting lemmas and the `parse_qs` / `urlencode` round-trip. -/

theorem splitFirstOn_not_mem (sep : Char) (s : Str) (h : sep ∉ s) :
    splitFirstOn sep s = none := by
  induction s with
  | nil => rfl
  | cons c rest ih =>
    have hc : c ≠ sep := fun hc => h (hc ▸ List.mem_cons_self c rest)
    have hrest : sep ∉ rest := fun hm => h (List.mem_cons_of_mem c hm)
    simp [splitFirstOn, hc, ih hrest]

theorem splitFirstOn_append (sep : Char) (a b : Str) (h : sep ∉ a) :
    splitFirstOn sep (a ++ sep :: b) = some (a, b) := by
  induction a with
  | nil => simp [splitFirstOn]
  | cons c rest ih =>
    have hc : c ≠ sep := fun hc => h (hc ▸ List.mem_cons_self c rest)
    have hrest : sep ∉ rest := fun hm => h (List.mem_cons_of_mem c hm)
    simp [splitFirstOn, hc, ih hrest]

theorem splitFirstOn_eq (sep : Char) :
    ∀ (s a b : Str), splitFirstOn sep s = some (a, b) →
      s = a ++ sep :: b ∧ sep ∉ a := by
  intro s
  induction s with
  | nil => intro a b h; exact absurd h (by simp [splitFirstOn])
  | cons c rest ih =>
    intro a b h
    by_cases hc : c = sep
    · subst hc
      simp only [splitFirstOn, if_pos rfl, Option.some.injEq, Prod.mk.injEq] at h
      obtain ⟨rfl, rfl⟩ := h
      simp
    · simp only [splitFirstOn, if_neg hc] at h
      match ha : splitFirstOn sep rest with
      | none => rw [ha] at h; exact absurd h (by simp)
      | some (a0, b0) =>
        rw [ha] at h
        simp at h
        obtain ⟨rfl, rfl⟩ := h
        obtain ⟨hs, hm⟩ := ih a0 b0 ha
        subst hs
        refine ⟨by simp, ?_⟩
        intro hmem
        rcases List.mem_cons.mp hmem with h1 | h1
        · exact hc h1.symm
        · exact hm h1

theorem splitAllOn_no_sep (sep : Char) (p : Str) (h : sep ∉ p) :
    splitAllOn sep p = [p] := by
  induction p with
  | nil => rfl
  | cons c rest ih =>
    have hc : c ≠ sep := fun hc => h (hc ▸ List.mem_cons_self c rest)
    have hrest : sep ∉ rest := fun hm => h (List.mem_cons_of_mem c hm)
    simp [splitAllOn, hc, ih hrest]

theorem splitAllOn_append_sep (sep : Char) (p t : Str) (h : sep ∉ p) :
    splitAllOn sep (p ++ sep :: t) = p :: splitAllOn sep t := by
  induction p with
  | nil => simp [splitAllOn]
  | cons c rest ih =>
    have hc : c ≠ sep := fun hc => h (hc ▸ List.mem_cons_self c rest)
    have hrest : sep ∉ rest := fun hm => h (List.mem_cons_of_mem c hm)
    simp [splitAllOn, hc, ih hrest]

theorem mem_quotePlus (s : Str) (x : Char) (hx : x ∈ quotePlus s) :
    quoteSafeChar x = true ∨ x = '+' ∨ x = '%' ∨
      (48 ≤ x.toNat ∧ x.toNat ≤ 57) ∨ (65 ≤ x.toNat ∧ x.toNat ≤ 70) := by
  unfold quotePlus at hx
  rw [List.mem_flatMap] at hx
  obtain ⟨c, _, hmem⟩ := hx
  by_cases hsp : c = ' '
  · rw [if_pos hsp] at hmem
    simp at hmem
    subst hmem
    right; left; rfl
  · rw [if_neg hsp] at hmem
    by_cases hsafe : quoteSafeChar c = true
    · rw [if_pos hsafe] at hmem
      simp at hmem
      subst hmem
      left; exact hsafe
    · rw [if_neg hsafe] at hmem
      unfold percentEncode at hmem
      rw [List.mem_flatMap] at hmem
      obtain ⟨b, _, hb⟩ := hmem
      simp only [List.mem_cons, List.not_mem_nil, or_false] at hb
      rcases hb with h | h | h
      · subst h; right; right; left; rfl
      all_goals
        subst h
        unfold hexDigitChar
        split <;> (rw [show Char.toNat _ = _ from toNat_ofNatAux _ _]) <;>
          [right; right] <;> [skip; skip] <;> omega

theorem not_mem_quotePlus (s : Str) (x : Char)
    (h1 : quoteSafeChar x = false) (h2 : x ≠ '+') (h3 : x ≠ '%')
    (h4 : x.toNat < 48 ∨ (57 < x.toNat ∧ x.toNat < 65) ∨ 70 < x.toNat) :
    x ∉ quotePlus s := by
  intro hx
  rcases mem_quotePlus s x hx with h | h | h | h | h
  · rw [h] at h1; cases h1
  · exact h2 h
  · exact h3 h
  · omega
  · omega

theorem quotePlus_ne_nil (s : Str) (h : s ≠ []) : quotePlus s ≠ [] := by
  match s with
  | c :: rest =>
    unfold quotePlus
    simp only [List.flatMap_cons]
    intro hc
    rcases List.append_eq_nil.mp hc with ⟨h1, _⟩
    by_cases hsp : c = ' '
    · rw [if_pos hsp] at h1; cases h1
    · rw [if_neg hsp] at h1
      by_cases hsafe : quoteSafeChar c = true
      · rw [if_pos hsafe] at h1; cases h1
      · rw [if_neg hsafe] at h1
        obtain ⟨b0, bt, he, _⟩ := utf8Step_enc c []
        rw [he] at h1
        simp [percentEncode] at h1

theorem utf8DecodeReplace_ne_nil (bs : Bytes) (h : bs ≠ []) :
    utf8DecodeReplace bs ≠ [] := by
  match bs with
  | b :: rest =>
    unfold utf8DecodeReplace
    simp only [List.length_cons, utf8DecodeReplaceAux]
    match utf8Step b rest with
    | (some c, r) => simp
    | (none, r) => simp

theorem unquoteAux_ne_nil :
    ∀ (n : Nat) (s : Str) (acc : Bytes), s.length ≤ n → (acc ≠ [] ∨ s ≠ []) →
      unquoteAux acc s ≠ [] := by
  intro n
  induction n with
  | zero =>
    intro s acc hl hne
    match s with
    | [] =>
      rw [unquoteAux_nil]
      exact utf8DecodeReplace_ne_nil acc (hne.resolve_right (fun hc => hc rfl))
    | _ :: _ => simp at hl
  | succ m ih =>
    intro s acc hl hne
    match s with
    | [] =>
      rw [unquoteAux_nil]
      exact utf8DecodeReplace_ne_nil acc (hne.resolve_right (fun hc => hc rfl))
    | c :: rest =>
      by_cases hc : c = '%'
      · subst hc
        match rest with
        | [] => simp [unquoteAux]
        | [x] => simp [unquoteAux]
        | c1 :: c2 :: rest2 =>
          cases h1 : hexVal c1 with
          | none => simp [unquoteAux, h1]
          | some hi =>
            cases h2 : hexVal c2 with
            | none => simp [unquoteAux, h1, h2]
            | some lo =>
              rw [unquoteAux_percent _ _ _ _ _ _ h1 h2]
              apply ih rest2 _ (by simp at hl; omega)
              left
              simp
      · rw [unquoteAux_cons_ne _ _ _ hc]
        simp

theorem unquotePlus_ne_nil (s : Str) (h : s ≠ []) : unquotePlus s ≠ [] := by
  unfold unquotePlus
  apply unquoteAux_ne_nil (s.map (fun c => if c = '+' then ' ' else c)).length _ _
    (Nat.le_refl _)
  right
  simp [h]

/-- The flattened key-value pairs of a query dict, in order. -/
def flatPairs (d : List (Str × List Str)) : List (Str × Str) :=
  d.flatMap (fun kv => kv.2.map (fun v => (kv.1, v)))

theorem urlencode_pieces (d : List (Str × List Str)) :
    urlencode d = joinAmp ((flatPairs d).map
      (fun p => quotePlus p.1 ++ '=' :: quotePlus p.2)) := by
  unfold urlencode flatPairs
  rw [List.map_flatMap]
  congr 1
  have hfun : (fun (a : Str × List Str) =>
        List.map (fun p : Str × Str => quotePlus p.1 ++ '=' :: quotePlus p.2)
          (List.map (fun v => (a.1, v)) a.2)) =
      (fun (kv : Str × List Str) =>
        List.map (fun v => quotePlus kv.1 ++ '=' :: quotePlus v) kv.2) := by
    funext a
    rw [List.map_map]
    rfl
  rw [hfun]

theorem joinAmp_splitAll (ps : List Str) (hne : ps ≠ [])
    (hp : ∀ p ∈ ps, '&' ∉ p) :
    splitAllOn '&' (joinAmp ps) = ps := by
  induction ps with
  | nil => cases hne rfl
  | cons p rest ih =>
    match rest with
    | [] => exact splitAllOn_no_sep '&' p (hp p (by simp))
    | q :: rest2 =>
      have hj : joinAmp (p :: q :: rest2) = p ++ '&' :: joinAmp (q :: rest2) := rfl
      rw [hj, splitAllOn_append_sep '&' _ _ (hp p (by simp)),
        ih (by simp) (fun x hx => hp x (List.mem_cons_of_mem p hx))]

theorem amp_not_mem_quotePlus (s : Str) : '&' ∉ quotePlus s :=
  not_mem_quotePlus s '&' (by decide) (by decide) (by decide)
    (by rw [show ('&').toNat = 38 from rfl]; omega)

theorem eq_not_mem_quotePlus (s : Str) : '=' ∉ quotePlus s :=
  not_mem_quotePlus s '=' (by decide) (by decide) (by decide)
    (by rw [show ('=').toNat = 61 from rfl]; omega)

theorem parse_qsl_urlencode (d : List (Str × List Str))
    (hv : ∀ kv ∈ d, ∀ v ∈ kv.2, v ≠ []) :
    parse_qsl (urlencode d) = flatPairs d := by
  rw [urlencode_pieces]
  by_cases hfp : flatPairs d = []
  · rw [hfp]
    rfl
  · unfold parse_qsl
    rw [joinAmp_splitAll _ (by simp [hfp]) ?hamp]
    case hamp =>
      intro p hp
      rw [List.mem_map] at hp
      obtain ⟨pair, _, rfl⟩ := hp
      intro hmem
      rcases List.mem_append.mp hmem with h | h
      · exact amp_not_mem_quotePlus _ h
      · rcases List.mem_cons.mp h with h | h
        · cases h
        · exact amp_not_mem_quotePlus _ h
    rw [List.filterMap_map]
    have hpt : ∀ p ∈ flatPairs d,
        ((fun piece =>
          match splitFirstOn '=' piece with
          | none => none
          | some (n, v) =>
            if v = [] then none else some (unquotePlus n, unquotePlus v)) ∘
         (fun p => quotePlus p.1 ++ '=' :: quotePlus p.2)) p = some p := by
      intro p hp
      have hvne : p.2 ≠ [] := by
        unfold flatPairs at hp
        rw [List.mem_flatMap] at hp
        obtain ⟨kv, hkv, hmem⟩ := hp
        rw [List.mem_map] at hmem
        obtain ⟨v, hvmem, rfl⟩ := hmem
        exact hv kv hkv v hvmem
      show (match splitFirstOn '=' (quotePlus p.1 ++ '=' :: quotePlus p.2) with
        | none => none
        | some (n, v) =>
          if v = [] then none else some (unquotePlus n, unquotePlus v)) = some p
      rw [splitFirstOn_append '=' _ _ (eq_not_mem_quotePlus _)]
      dsimp only
      rw [if_neg (quotePlus_ne_nil _ hvne)]
      rw [unquotePlus_quotePlus, unquotePlus_quotePlus]
    exact (List.filterMap_congr hpt).trans (List.filterMap_some _)

/-- The keys of a query dict, in order. -/
def qdKeys (d : List (Str × List Str)) : List Str := d.map Prod.fst

theorem dictAppend_not_mem (d : List (Str × List Str)) (k : Str) (v : Str)
    (h : k ∉ qdKeys d) : dictAppend d k v = d ++ [(k, [v])] := by
  induction d with
  | nil => rfl
  | cons kv rest ih =>
    have hk : kv.1 ≠ k := fun hc => h (hc ▸ List.mem_map_of_mem Prod.fst (by simp))
    obtain ⟨k0, vs0⟩ := kv
    simp only [dictAppend, if_neg hk, List.cons_append]
    rw [ih (fun hm => h (List.mem_cons_of_mem _ hm))]

theorem dictAppend_last (A : List (Str × List Str)) (k : Str) (vs0 : List Str)
    (v : Str) (h : k ∉ qdKeys A) :
    dictAppend (A ++ [(k, vs0)]) k v = A ++ [(k, vs0 ++ [v])] := by
  induction A with
  | nil => simp [dictAppend]
  | cons kv rest ih =>
    have hk : kv.1 ≠ k := fun hc => h (hc ▸ List.mem_map_of_mem Prod.fst (by simp))
    obtain ⟨k0, vs1⟩ := kv
    simp only [List.cons_append, dictAppend, if_neg hk]
    exact congrArg (List.cons (k0, vs1)) (ih (fun hm => h (List.mem_cons_of_mem _ hm)))

theorem foldl_dictAppend_group (k : Str) (vs : List Str) :
    ∀ (A : List (Str × List Str)) (vs0 : List Str), k ∉ qdKeys A →
      List.foldl (fun a p => dictAppend a p.1 p.2) (A ++ [(k, vs0)])
        (vs.map (fun v => (k, v))) = A ++ [(k, vs0 ++ vs)] := by
  induction vs with
  | nil => intro A vs0 _; simp
  | cons v vs ih =>
    intro A vs0 hA
    simp only [List.map_cons, List.foldl_cons]
    rw [dictAppend_last A k vs0 v hA, ih A (vs0 ++ [v]) hA]
    simp

theorem foldl_dictAppend_flatPairs (d : List (Str × List Str)) :
    ∀ A : List (Str × List Str),
      (∀ kk ∈ qdKeys d, kk ∉ qdKeys A) → (qdKeys d).Nodup →
      (∀ kv ∈ d, kv.2 ≠ []) →
      List.foldl (fun a p => dictAppend a p.1 p.2) A (flatPairs d) = A ++ d := by
  induction d with
  | nil => intro A _ _ _; simp [flatPairs]
  | cons kv rest ih =>
    intro A hdisj hnd hvs
    obtain ⟨k, vs⟩ := kv
    have hfp : flatPairs ((k, vs) :: rest) =
        vs.map (fun v => (k, v)) ++ flatPairs rest := by
      simp [flatPairs]
    rw [hfp, List.foldl_append]
    have hkA : k ∉ qdKeys A := hdisj k (by simp [qdKeys])
    cases vs with
    | nil =>
      exact absurd rfl (hvs (k, []) (by simp))
    | cons v0 vrest =>
      have hstep : List.foldl (fun a p => dictAppend a p.1 p.2) A
          ((v0 :: vrest).map (fun v => (k, v))) = A ++ [(k, v0 :: vrest)] := by
        simp only [List.map_cons, List.foldl_cons]
        rw [dictAppend_not_mem A k v0 hkA,
          foldl_dictAppend_group k vrest A [v0] hkA]
        rfl
      rw [hstep]
      have hnd' : (qdKeys rest).Nodup := by
        simpa [qdKeys] using (List.nodup_cons.mp (by simpa [qdKeys] using hnd)).2
      have hkrest : k ∉ qdKeys rest :=
        (List.nodup_cons.mp (by simpa [qdKeys] using hnd)).1
      rw [ih (A ++ [(k, v0 :: vrest)])
        (fun kk hkk => by
          intro hmem
          rw [qdKeys, List.map_append] at hmem
          rcases List.mem_append.mp hmem with h1 | h1
          · exact hdisj kk (List.mem_cons_of_mem _ hkk) h1
          · simp at h1
            exact hkrest (h1 ▸ hkk))
        hnd' (fun kv2 hkv2 => hvs kv2 (List.mem_cons_of_mem _ hkv2))]
      simp

/-- Wellformedness of a query dict as `parse_qs` produces it: keys are
distinct, every value list and every value is nonempty. -/
def QDictWF (d : List (Str × List Str)) : Prop :=
  (qdKeys d).Nodup ∧ ∀ kv ∈ d, kv.2 ≠ [] ∧ ∀ v ∈ kv.2, v ≠ []

theorem parse_qs_urlencode (d : List (Str × List Str)) (hwf : QDictWF d) :
    parse_qs (urlencode d) = d := by
  unfold parse_qs
  rw [parse_qsl_urlencode d (fun kv hkv => (hwf.2 kv hkv).2)]
  have h := foldl_dictAppend_flatPairs d [] (by simp [qdKeys]) hwf.1
    (fun kv hkv => (hwf.2 kv hkv).1)
  simpa using h

theorem dictGet_dictSet (d : List (Str × List Str)) (k : Str) (vs dflt : List Str) :
    dictGet (dictSet d k vs) k dflt = vs := by
  induction d with
  | nil => simp [dictSet, dictGet]
  | cons kv rest ih =>
    obtain ⟨k0, vs0⟩ := kv
    by_cases hk : k0 = k
    · simp [dictSet, dictGet, hk]
    · simp only [dictSet, if_neg hk, dictGet, ih]

theorem dictAppend_keys (d : List (Str × List Str)) (k : Str) (v : Str) :
    qdKeys (dictAppend d k v) =
      if k ∈ qdKeys d then qdKeys d else qdKeys d ++ [k] := by
  induction d with
  | nil => simp [dictAppend, qdKeys]
  | cons kv rest ih =>
    obtain ⟨k0, vs0⟩ := kv
    by_cases hk : k0 = k
    · subst hk
      simp [dictAppend, qdKeys]
    · simp only [dictAppend, if_neg hk, qdKeys, List.map_cons] at ih ⊢
      rw [ih]
      have hiff : (k ∈ k0 :: List.map Prod.fst rest) ↔ (k ∈ List.map Prod.fst rest) := by
        constructor
        · intro hc
          rcases List.mem_cons.mp hc with h1 | h1
          · exact absurd h1.symm hk
          · exact h1
        · exact fun hc => List.mem_cons_of_mem _ hc
      by_cases hm : k ∈ List.map Prod.fst rest
      · rw [if_pos hm, if_pos (hiff.mpr hm)]
      · rw [if_neg hm, if_neg (fun hc => hm (hiff.mp hc))]
        simp

theorem dictAppend_nodup (d : List (Str × List Str)) (k : Str) (v : Str)
    (h : (qdKeys d).Nodup) : (qdKeys (dictAppend d k v)).Nodup := by
  rw [dictAppend_keys]
  by_cases hm : k ∈ qdKeys d
  · rwa [if_pos hm]
  · rw [if_neg hm]
    simp [List.nodup_append, h, hm]

theorem dictAppend_vals (d : List (Str × List Str)) (k : Str) (v : Str)
    (hd : ∀ kv ∈ d, kv.2 ≠ [] ∧ ∀ x ∈ kv.2, x ≠ []) (hv : v ≠ []) :
    ∀ kv ∈ dictAppend d k v, kv.2 ≠ [] ∧ ∀ x ∈ kv.2, x ≠ [] := by
  induction d with
  | nil =>
    intro kv hkv
    simp only [dictAppend, List.mem_singleton] at hkv
    subst hkv
    exact ⟨by simp, by simpa using hv⟩
  | cons kv0 rest ih =>
    obtain ⟨k0, vs0⟩ := kv0
    intro kv hkv
    by_cases hk : k0 = k
    · rw [dictAppend, if_pos hk] at hkv
      rcases List.mem_cons.mp hkv with h1 | h1
      · subst h1
        refine ⟨by simp, ?_⟩
        intro x hx
        rcases List.mem_append.mp hx with h2 | h2
        · exact (hd (k0, vs0) (by simp)).2 x h2
        · simp only [List.mem_singleton] at h2
          exact h2 ▸ hv
      · exact hd kv (List.mem_cons_of_mem _ h1)
    · rw [dictAppend, if_neg hk] at hkv
      rcases List.mem_cons.mp hkv with h1 | h1
      · exact h1 ▸ hd (k0, vs0) (by simp)
      · exact ih (fun kv2 hkv2 => hd kv2 (List.mem_cons_of_mem _ hkv2)) kv h1

theorem parse_qsl_vals (qs : Str) : ∀ p ∈ parse_qsl qs, p.2 ≠ [] := by
  intro p hp
  unfold parse_qsl at hp
  rw [List.mem_filterMap] at hp
  obtain ⟨piece, _, hf⟩ := hp
  cases h : splitFirstOn '=' piece with
  | none => rw [h] at hf; cases hf
  | some nv =>
    obtain ⟨n, v⟩ := nv
    rw [h] at hf
    dsimp only at hf
    by_cases hv : v = []
    · rw [if_pos hv] at hf; cases hf
    · rw [if_neg hv] at hf
      injection hf with hf
      rw [← hf]
      exact unquotePlus_ne_nil v hv

theorem foldl_dictAppend_wf (pairs : List (Str × Str)) :
    ∀ A : List (Str × List Str), (∀ p ∈ pairs, p.2 ≠ []) → QDictWF A →
      QDictWF (List.foldl (fun a p => dictAppend a p.1 p.2) A pairs) := by
  induction pairs with
  | nil => intro A _ hA; exact hA
  | cons p ps ih =>
    intro A hp hA
    simp only [List.foldl_cons]
    exact ih (dictAppend A p.1 p.2)
      (fun q hq => hp q (List.mem_cons_of_mem _ hq))
      ⟨dictAppend_nodup A p.1 p.2 hA.1,
        dictAppend_vals A p.1 p.2 hA.2 (hp p (by simp))⟩

theorem parse_qs_wf (qs : Str) : QDictWF (parse_qs qs) :=
  foldl_dictAppend_wf (parse_qsl qs) [] (parse_qsl_vals qs)
    ⟨by simp [qdKeys], by simp⟩

theorem mem_dictSet (d : List (Str × List Str)) (k : Str) (vs : List Str) :
    ∀ kv ∈ dictSet d k vs, kv ∈ d ∨ kv = (k, vs) := by
  induction d with
  | nil => intro kv hkv; simp only [dictSet, List.mem_singleton] at hkv; right; exact hkv
  | cons kv0 rest ih =>
    obtain ⟨k0, vs0⟩ := kv0
    intro kv hkv
    by_cases hk : k0 = k
    · rw [dictSet, if_pos hk] at hkv
      rcases List.mem_cons.mp hkv with h1 | h1
      · right; rw [h1, hk]
      · left; exact List.mem_cons_of_mem _ h1
    · rw [dictSet, if_neg hk] at hkv
      rcases List.mem_cons.mp hkv with h1 | h1
      · left; exact h1 ▸ List.mem_cons_self _ _
      · rcases ih kv h1 with h2 | h2
        · left; exact List.mem_cons_of_mem _ h2
        · right; exact h2

theorem dictSet_keys (d : List (Str × List Str)) (k : Str) (vs : List Str) :
    qdKeys (dictSet d k vs) =
      if k ∈ qdKeys d then qdKeys d else qdKeys d ++ [k] := by
  induction d with
  | nil => simp [dictSet, qdKeys]
  | cons kv rest ih =>
    obtain ⟨k0, vs0⟩ := kv
    by_cases hk : k0 = k
    · subst hk
      simp [dictSet, qdKeys]
    · simp only [dictSet, if_neg hk, qdKeys, List.map_cons] at ih ⊢
      rw [ih]
      by_cases hm : k ∈ List.map Prod.fst rest
      · rw [if_pos hm, if_pos (by simp [hm])]
      · rw [if_neg hm, if_neg (by
          simp only [List.mem_cons]
          rintro (hc | hc)
          · exact hk hc.symm
          · exact hm hc)]
        simp

theorem dictSet_wf (d : List (Str × List Str)) (k : Str) (vs : List Str)
    (h : QDictWF d) (h1 : vs ≠ []) (h2 : ∀ v ∈ vs, v ≠ []) :
    QDictWF (dictSet d k vs) := by
  constructor
  · rw [dictSet_keys]
    by_cases hm : k ∈ qdKeys d
    · rw [if_pos hm]
      exact h.1
    · rw [if_neg hm]
      simp [List.nodup_append, h.1, hm]
  · intro kv hkv
    rcases mem_dictSet d k vs kv hkv with hm | hm
    · exact h.2 kv hm
    · rw [hm]
      exact ⟨h1, h2⟩

/-! Stage lemmas for the `urlparse` / `urlunparse` round trip. -/

theorem splitFirstOn_none_not_mem (sep : Char) :
    ∀ s : Str, splitFirstOn sep s = none → sep ∉ s := by
  intro s
  induction s with
  | nil => intro _ hm; cases hm
  | cons c rest ih =>
    intro h hm
    by_cases hc : c = sep
    · rw [splitFirstOn, if_pos hc] at h; cases h
    · rw [splitFirstOn, if_neg hc] at h
      cases hr : splitFirstOn sep rest with
      | none =>
        rcases List.mem_cons.mp hm with h1 | h1
        · exact hc h1.symm
        · exact ih hr h1
      | some p => rw [hr] at h; cases h

theorem splitFirstOn_starts (sep : Char) :
    ∀ (pre post aw bw : Str), splitFirstOn sep (pre ++ post) = some (aw, bw) →
      sep ∉ pre → ∃ t, aw = pre ++ t := by
  intro pre
  induction pre with
  | nil => intro post aw bw _ _; exact ⟨aw, rfl⟩
  | cons c pre ih =>
    intro post aw bw h hm
    have hc : c ≠ sep := fun hc => hm (hc ▸ List.mem_cons_self c pre)
    rw [List.cons_append, splitFirstOn, if_neg hc] at h
    cases hr : splitFirstOn sep (pre ++ post) with
    | none => rw [hr] at h; cases h
    | some p =>
      obtain ⟨a0, b0⟩ := p
      rw [hr] at h
      simp at h
      obtain ⟨rfl, rfl⟩ := h
      obtain ⟨t, ht⟩ := ih post a0 b0 hr (fun hmm => hm (List.mem_cons_of_mem c hmm))
      exact ⟨t, by rw [ht]; rfl⟩

theorem takeWhile_dropWhile_append (p : Char → Bool) (a b : Str)
    (ha : ∀ c ∈ a, p c = true)
    (hb : b = [] ∨ ∃ c t, b = c :: t ∧ p c = false) :
    (a ++ b).takeWhile p = a ∧ (a ++ b).dropWhile p = b := by
  induction a with
  | nil =>
    rcases hb with rfl | ⟨c, t, rfl, hc⟩
    · simp
    · simp [List.takeWhile, List.dropWhile, hc]
  | cons x a ih =>
    have hx : p x = true := ha x (by simp)
    obtain ⟨h1, h2⟩ := ih (fun c hc => ha c (List.mem_cons_of_mem x hc))
    constructor
    · simp [List.takeWhile, hx, h1]
    · simp [List.dropWhile, hx, h2]

theorem splitLastOn_eq (sep : Char) (s x y : Str)
    (h : splitLastOn sep s = some (x, y)) :
    s = x ++ sep :: y ∧ sep ∉ y := by
  unfold splitLastOn at h
  cases hr : splitFirstOn sep s.reverse with
  | none => rw [hr] at h; cases h
  | some p =>
    obtain ⟨a, b⟩ := p
    rw [hr] at h
    simp at h
    obtain ⟨rfl, rfl⟩ := h
    obtain ⟨hs, hm⟩ := splitFirstOn_eq sep s.reverse a b hr
    constructor
    · have := congrArg List.reverse hs
      simpa using this
    · intro hmm
      exact hm (by simpa using List.mem_reverse.mpr (by simpa using hmm))

theorem splitFragStage_cases (r : Str) :
    (splitFragStage r = (r, []) ∧ '#' ∉ r) ∨
    (∃ a b, splitFragStage r = (a, b) ∧ r = a ++ '#' :: b ∧ '#' ∉ a) := by
  unfold splitFragStage
  cases h : splitFirstOn '#' r with
  | none => exact Or.inl ⟨rfl, splitFirstOn_none_not_mem '#' r h⟩
  | some p =>
    obtain ⟨a, b⟩ := p
    obtain ⟨hs, hm⟩ := splitFirstOn_eq '#' r a b h
    exact Or.inr ⟨a, b, rfl, hs, hm⟩

theorem splitQueryStage_cases (r : Str) :
    (splitQueryStage r = (r, []) ∧ '?' ∉ r) ∨
    (∃ a b, splitQueryStage r = (a, b) ∧ r = a ++ '?' :: b ∧ '?' ∉ a) := by
  unfold splitQueryStage
  cases h : splitFirstOn '?' r with
  | none => exact Or.inl ⟨rfl, splitFirstOn_none_not_mem '?' r h⟩
  | some p =>
    obtain ⟨a, b⟩ := p
    obtain ⟨hs, hm⟩ := splitFirstOn_eq '?' r a b h
    exact Or.inr ⟨a, b, rfl, hs, hm⟩

theorem splitFragStage_concat (a f : Str) (ha : '#' ∉ a) :
    splitFragStage (a ++ '#' :: f) = (a, f) := by
  unfold splitFragStage
  rw [splitFirstOn_append '#' a f ha]

theorem splitFragStage_no (a : Str) (ha : '#' ∉ a) : splitFragStage a = (a, []) := by
  unfold splitFragStage
  rw [splitFirstOn_not_mem '#' a ha]

theorem splitQueryStage_concat (a q : Str) (ha : '?' ∉ a) :
    splitQueryStage (a ++ '?' :: q) = (a, q) := by
  unfold splitQueryStage
  rw [splitFirstOn_append '?' a q ha]

theorem lowerChar_toNat (c : Char) :
    (lowerChar c).toNat =
      if 65 ≤ c.toNat ∧ c.toNat ≤ 90 then c.toNat + 32 else c.toNat := by
  unfold lowerChar
  split
  · next h => rw [toNat_ofNatAux]
  · next h => rfl

theorem splitScheme_no_colon (s : Str) (h : ':' ∉ s) : splitScheme s = ([], s) := by
  unfold splitScheme
  rw [splitFirstOn_not_mem ':' s h]

theorem splitScheme_head_nonalpha (c : Char) (t : Str) (h : asciiAlpha c = false) :
    splitScheme (c :: t) = ([], c :: t) := by
  unfold splitScheme
  cases hr : splitFirstOn ':' (c :: t) with
  | none => rfl
  | some p =>
    obtain ⟨pre, post⟩ := p
    obtain ⟨hs, hm⟩ := splitFirstOn_eq ':' _ pre post hr
    cases pre with
    | nil => rfl
    | cons c0 t0 =>
      have hc0 : c0 = c := by
        have := congrArg (fun l => List.headD l ' ') hs
        simpa using this.symm
      subst hc0
      simp [h]

theorem splitScheme_of_invalid (s pre post : Str)
    (hr : splitFirstOn ':' s = some (pre, post))
    (h : pre = [] ∨ ∀ c0 t0, pre = c0 :: t0 →
      ¬(asciiAlpha c0 = true ∧ pre.all schemeChar = true)) :
    splitScheme s = ([], s) := by
  unfold splitScheme
  rw [hr]
  rcases h with rfl | h
  · rfl
  · cases pre with
    | nil => rfl
    | cons c0 t0 =>
      have := h c0 t0 rfl
      by_cases ha : asciiAlpha c0 = true
      · have hall : ¬((c0 :: t0).all schemeChar = true) := fun hc => this ⟨ha, hc⟩
        simp only [ha, Bool.true_and]
        rw [if_neg hall]
      · simp only [Bool.and_eq_true]
        rw [if_neg (fun hc => ha hc.1)]

theorem splitScheme_of_valid (pre post : Str) (c0 : Char) (t0 : Str)
    (hpre : pre = c0 :: t0) (ha : asciiAlpha c0 = true)
    (hall : pre.all schemeChar = true) (hm : ':' ∉ pre) :
    splitScheme (pre ++ ':' :: post) = (toLowerS pre, post) := by
  unfold splitScheme
  rw [splitFirstOn_append ':' pre post hm, hpre]
  simp only [← hpre, ha, hall]
  simp

theorem netStop_false_iff (c : Char) :
    (!(netStop c)) = true ↔ (c ≠ '/' ∧ c ≠ '?' ∧ c ≠ '#') := by
  unfold netStop
  constructor
  · intro h
    simp only [Bool.not_eq_true', Bool.or_eq_false_iff, decide_eq_false_iff_not] at h
    exact ⟨h.1.1, h.1.2, h.2⟩
  · intro ⟨h1, h2, h3⟩
    simp [h1, h2, h3]

theorem splitNetlocStage_concat (netloc tail : Str)
    (hn : ∀ c ∈ netloc, (!(netStop c)) = true)
    (ht : tail = [] ∨ ∃ c t, tail = c :: t ∧ netStop c = true) :
    splitNetlocStage ("//".toList ++ netloc ++ tail) = (netloc, tail) := by
  unfold splitNetlocStage
  rw [if_pos (by simp [List.isPrefixOf])]
  have hdrop : (("//".toList ++ netloc ++ tail).drop 2) = netloc ++ tail := rfl
  rw [hdrop]
  obtain ⟨h1, h2⟩ := takeWhile_dropWhile_append (fun c => !(netStop c)) netloc tail hn
    (by
      rcases ht with rfl | ⟨c, t, rfl, hc⟩
      · exact Or.inl rfl
      · exact Or.inr ⟨c, t, rfl, by simp [hc]⟩)
  rw [h1, h2]

theorem splitNetlocStage_no_slash (t : Str) (h : ¬ ("//".toList.isPrefixOf t = true)) :
    splitNetlocStage t = ([], t) := by
  unfold splitNetlocStage
  rw [if_neg h]

theorem asciiAlpha_lowerChar (c : Char) (h : asciiAlpha c = true) :
    asciiAlpha (lowerChar c) = true := by
  rw [asciiAlpha, decide_eq_true_eq] at h ⊢
  rw [lowerChar_toNat]
  split <;> omega

theorem schemeChar_lowerChar (c : Char) (h : schemeChar c = true) :
    schemeChar (lowerChar c) = true := by
  rw [schemeChar, decide_eq_true_eq] at h ⊢
  rw [lowerChar_toNat]
  split <;> omega

theorem lowerChar_ne_low (y x : Char) (hx : x.toNat < 65) (h : y ≠ x) :
    lowerChar y ≠ x := by
  intro hc
  have ht := congrArg Char.toNat hc
  rw [lowerChar_toNat] at ht
  split at ht
  · omega
  · exact h (char_eq_of_toNat_eq ht)

theorem splitScheme_cases (s : Str) :
    splitScheme s = ([], s) ∨
    (∃ pre post, s = pre ++ ':' :: post ∧ ':' ∉ pre ∧
      splitScheme s = (toLowerS pre, post)) := by
  unfold splitScheme
  cases hr : splitFirstOn ':' s with
  | none => exact Or.inl rfl
  | some p =>
    obtain ⟨pre, post⟩ := p
    obtain ⟨hs, hm⟩ := splitFirstOn_eq ':' s pre post hr
    cases pre with
    | nil => exact Or.inl rfl
    | cons c0 t0 =>
      by_cases hcond : asciiAlpha c0 = true ∧ (c0 :: t0).all schemeChar = true
      · refine Or.inr ⟨c0 :: t0, post, hs, hm, ?_⟩
        simp [hcond.1, hcond.2]
      · left
        simp only [Bool.and_eq_true]
        rw [if_neg hcond]

theorem splitScheme_fst_props (s : Str) :
    ((splitScheme s).1 = [] ∨
      ∃ c0 t, (splitScheme s).1 = c0 :: t ∧ asciiAlpha c0 = true) ∧
    (∀ c ∈ (splitScheme s).1, schemeChar c = true) ∧
    toLowerS (splitScheme s).1 = (splitScheme s).1 := by
  unfold splitScheme
  cases hr : splitFirstOn ':' s with
  | none => exact ⟨Or.inl rfl, by simp, rfl⟩
  | some p =>
    obtain ⟨pre, post⟩ := p
    cases pre with
    | nil => exact ⟨Or.inl rfl, by simp, rfl⟩
    | cons c0 t0 =>
      by_cases hcond : asciiAlpha c0 = true ∧ (c0 :: t0).all schemeChar = true
      · simp only [hcond.1, hcond.2, Bool.and_self, if_true]
        refine ⟨Or.inr ⟨lowerChar c0, toLowerS t0, rfl, asciiAlpha_lowerChar c0 hcond.1⟩,
          ?_, toLowerS_toLowerS _⟩
        intro c hc
        rw [toLowerS, List.mem_map] at hc
        obtain ⟨y, hy, rfl⟩ := hc
        exact schemeChar_lowerChar y (by
          have := hcond.2
          rw [List.all_eq_true] at this
          exact this y hy)
      · simp only [Bool.and_eq_true]
        rw [if_neg hcond]
        exact ⟨Or.inl rfl, by simp, rfl⟩

theorem splitParams_recombine (r : Str) :
    ∃ t3 : Str, (t3 = [] ∨ t3 = [';']) ∧
      r = ((splitParams r).1 ++
        (if (splitParams r).2 = [] then [] else ';' :: (splitParams r).2)) ++ t3 := by
  unfold splitParams
  cases hl : splitLastOn '/' r with
  | none =>
    cases hf : splitFirstOn ';' r with
    | none => exact ⟨[], Or.inl rfl, by simp⟩
    | some p =>
      obtain ⟨p1, p2⟩ := p
      obtain ⟨hs, _⟩ := splitFirstOn_eq ';' r p1 p2 hf
      cases hp2 : p2 with
      | nil =>
        refine ⟨[';'], Or.inr rfl, ?_⟩
        rw [hs, hp2]
        simp
      | cons v t =>
        refine ⟨[], Or.inl rfl, ?_⟩
        rw [hs]
        simp [hp2]
  | some pp =>
    obtain ⟨pre, post⟩ := pp
    obtain ⟨hs, _⟩ := splitLastOn_eq '/' r pre post hl
    dsimp only
    cases hf : splitFirstOn ';' post with
    | none =>
      refine ⟨[], Or.inl rfl, ?_⟩
      simp
    | some p =>
      obtain ⟨p1, p2⟩ := p
      obtain ⟨hs2, _⟩ := splitFirstOn_eq ';' post p1 p2 hf
      cases hp2 : p2 with
      | nil =>
        refine ⟨[';'], Or.inr rfl, ?_⟩
        dsimp only
        rw [hs, hs2, hp2]
        simp
      | cons v t =>
        refine ⟨[], Or.inl rfl, ?_⟩
        dsimp only
        rw [hs, hs2, hp2]
        simp

theorem splitParamsStage_recombine (scheme r : Str) :
    ∃ t3 : Str, (t3 = [] ∨ t3 = [';']) ∧
      r = ((splitParamsStage scheme r).1 ++
        (if (splitParamsStage scheme r).2 = [] then []
          else ';' :: (splitParamsStage scheme r).2)) ++ t3 := by
  unfold splitParamsStage
  split
  · exact splitParams_recombine r
  · exact ⟨[], Or.inl rfl, by simp⟩

theorem mem_removeUnsafe (s : Str) (c : Char) (h : c ∈ removeUnsafe s) :
    c ≠ '\t' ∧ c ≠ '\r' ∧ c ≠ '\n' := by
  unfold removeUnsafe at h
  have := List.of_mem_filter h
  simp only [Bool.and_eq_true, bne_iff_ne, ne_eq] at this
  exact ⟨this.1.1, this.1.2, this.2⟩

theorem removeUnsafe_eq_self (s : Str)
    (h : ∀ c ∈ s, c ≠ '\t' ∧ c ≠ '\r' ∧ c ≠ '\n') : removeUnsafe s = s := by
  unfold removeUnsafe
  apply List.filter_eq_self.mpr
  intro c hc
  obtain ⟨h1, h2, h3⟩ := h c hc
  simp [h1, h2, h3]

theorem splitNetlocStage_fst_mem (r : Str) (c : Char)
    (h : c ∈ (splitNetlocStage r).1) : c ∈ r := by
  unfold splitNetlocStage at h
  split at h
  · exact (List.drop_subset 2 r) ((List.takeWhile_sublist _).subset h)
  · cases h

theorem splitNetlocStage_snd_mem (r : Str) (c : Char)
    (h : c ∈ (splitNetlocStage r).2) : c ∈ r := by
  unfold splitNetlocStage at h
  split at h
  · exact (List.drop_subset 2 r) ((List.dropWhile_sublist _).subset h)
  · exact h

theorem splitNetlocStage_fst_noStop (r : Str) :
    ∀ c ∈ (splitNetlocStage r).1, (!(netStop c)) = true := by
  intro c h
  unfold splitNetlocStage at h
  split at h
  · have h2 := List.mem_takeWhile_imp
      (show c ∈ List.takeWhile (fun c => !netStop c) (List.drop 2 r) from h)
    simpa using h2
  · cases h

theorem splitFragStage_fst_mem (r : Str) (c : Char)
    (h : c ∈ (splitFragStage r).1) : c ∈ r := by
  rcases splitFragStage_cases r with ⟨he, _⟩ | ⟨a, b, he, hr, _⟩
  · rw [he] at h; exact h
  · rw [he] at h
    rw [hr]
    exact List.mem_append_left _ h

theorem splitFragStage_snd_mem (r : Str) (c : Char)
    (h : c ∈ (splitFragStage r).2) : c ∈ r := by
  rcases splitFragStage_cases r with ⟨he, _⟩ | ⟨a, b, he, hr, _⟩
  · rw [he] at h; cases h
  · rw [he] at h
    rw [hr]
    exact List.mem_append_right _ (List.mem_cons_of_mem _ h)

theorem splitQueryStage_fst_mem (r : Str) (c : Char)
    (h : c ∈ (splitQueryStage r).1) : c ∈ r := by
  rcases splitQueryStage_cases r with ⟨he, _⟩ | ⟨a, b, he, hr, _⟩
  · rw [he] at h; exact h
  · rw [he] at h
    rw [hr]
    exact List.mem_append_left _ h

theorem splitQueryStage_fst_no (r : Str) : '?' ∉ (splitQueryStage r).1 := by
  rcases splitQueryStage_cases r with ⟨he, hn⟩ | ⟨a, b, he, hr, hn⟩
  · rw [he]; exact hn
  · rw [he]; exact hn

theorem splitParamsStage_fst_mem (scheme r : Str) (c : Char)
    (h : c ∈ (splitParamsStage scheme r).1) : c ∈ r := by
  obtain ⟨t3, _, hrec⟩ := splitParamsStage_recombine scheme r
  rw [hrec]
  exact List.mem_append_left _ (List.mem_append_left _ h)

theorem splitParamsStage_snd_mem (scheme r : Str) (c : Char)
    (h : c ∈ (splitParamsStage scheme r).2) : c ∈ r := by
  obtain ⟨t3, _, hrec⟩ := splitParamsStage_recombine scheme r
  rw [hrec]
  apply List.mem_append_left
  apply List.mem_append_right
  rw [if_neg (by intro hc; rw [hc] at h; cases h)]
  exact List.mem_cons_of_mem _ h

theorem splitScheme_fst_mem (s : Str) (c : Char) (h : c ∈ (splitScheme s).1) :
    ∃ y ∈ s, c = lowerChar y := by
  rcases splitScheme_cases s with he | ⟨pre, post, hs, _, he⟩
  · rw [he] at h; cases h
  · rw [he] at h
    dsimp only at h
    rw [toLowerS, List.mem_map] at h
    obtain ⟨y, hy, rfl⟩ := h
    exact ⟨y, by rw [hs]; exact List.mem_append_left _ hy, rfl⟩

theorem splitScheme_snd_mem (s : Str) (c : Char) (h : c ∈ (splitScheme s).2) :
    c ∈ s := by
  rcases splitScheme_cases s with he | ⟨pre, post, hs, _, he⟩
  · rw [he] at h; exact h
  · rw [he] at h
    rw [hs]
    exact List.mem_append_right _ (List.mem_cons_of_mem _ h)

theorem urlsplitRaw_clean (url : Str) (c : Char)
    (h : c ∈ (urlsplitRaw url).scheme ∨ c ∈ (urlsplitRaw url).netloc ∨
      c ∈ (urlsplitRaw url).path ∨ c ∈ (urlsplitRaw url).params ∨
      c ∈ (urlsplitRaw url).fragment) :
    c ≠ '\t' ∧ c ≠ '\r' ∧ c ≠ '\n' := by
  have hu0 : ∀ x ∈ removeUnsafe url, x ≠ '\t' ∧ x ≠ '\r' ∧ x ≠ '\n' :=
    fun x hx => mem_removeUnsafe url x hx
  rcases h with h | h | h | h | h
  · obtain ⟨y, hy, rfl⟩ := splitScheme_fst_mem _ c h
    obtain ⟨h1, h2, h3⟩ := hu0 y hy
    exact ⟨lowerChar_ne_low y _ (by decide) h1,
      lowerChar_ne_low y _ (by decide) h2, lowerChar_ne_low y _ (by decide) h3⟩
  · exact hu0 c (splitScheme_snd_mem _ c (splitNetlocStage_fst_mem _ c h))
  · exact hu0 c (splitScheme_snd_mem _ c (splitNetlocStage_snd_mem _ c
      (splitFragStage_fst_mem _ c (splitQueryStage_fst_mem _ c
        (splitParamsStage_fst_mem _ _ c h)))))
  · exact hu0 c (splitScheme_snd_mem _ c (splitNetlocStage_snd_mem _ c
      (splitFragStage_fst_mem _ c (splitQueryStage_fst_mem _ c
        (splitParamsStage_snd_mem _ _ c h)))))
  · exact hu0 c (splitScheme_snd_mem _ c (splitNetlocStage_snd_mem _ c
      (splitFragStage_snd_mem _ c h)))

theorem splitFragStage_fst_no (r : Str) : '#' ∉ (splitFragStage r).1 := by
  rcases splitFragStage_cases r with ⟨he, hn⟩ | ⟨a, b, he, hr, hn⟩
  · rw [he]; exact hn
  · rw [he]; exact hn

theorem splitScheme_none (s : Str) (h : splitFirstOn ':' s = none) :
    splitScheme s = ([], s) := by
  unfold splitScheme
  rw [h]

theorem splitScheme_invalid_of (s a post : Str)
    (hr : splitFirstOn ':' s = some (a, post)) (hs : (splitScheme s).1 = []) :
    a = [] ∨ ∀ c0 t0, a = c0 :: t0 →
      ¬(asciiAlpha c0 = true ∧ a.all schemeChar = true) := by
  unfold splitScheme at hs
  rw [hr] at hs
  cases a with
  | nil => exact Or.inl rfl
  | cons c0 t0 =>
    right
    intro c1 t1 he hcond
    injection he with he1 he2
    subst he1
    subst he2
    dsimp only at hs
    rw [hcond.1, hcond.2] at hs
    simp [toLowerS] at hs

theorem mem_splitFirstOn_some (sep : Char) (s : Str) (h : sep ∈ s) :
    ∃ a b, splitFirstOn sep s = some (a, b) := by
  cases hr : splitFirstOn sep s with
  | none => exact absurd h (splitFirstOn_none_not_mem sep s hr)
  | some p =>
    obtain ⟨a, b⟩ := p
    exact ⟨a, b, rfl⟩

theorem all_schemeChar_no_colon (a : Str) (h : a.all schemeChar = true) :
    ':' ∉ a := by
  intro hm
  rw [List.all_eq_true] at h
  have := h ':' hm
  rw [schemeChar, decide_eq_true_eq] at this
  rw [show (':').toNat = 58 from rfl] at this
  omega

theorem splitScheme_append_invalid (url0 u0 rest : Str)
    (hs0 : (splitScheme url0).1 = [])
    (hX : ∃ X, url0 = u0 ++ X) :
    splitScheme (u0 ++ '?' :: rest) = ([], u0 ++ '?' :: rest) := by
  obtain ⟨X, hXeq⟩ := hX
  by_cases hcol : ':' ∈ u0
  · obtain ⟨a, c3, hsp⟩ := mem_splitFirstOn_some ':' u0 hcol
    obtain ⟨hu0, hna⟩ := splitFirstOn_eq ':' u0 a c3 hsp
    have hw : u0 ++ '?' :: rest = a ++ ':' :: (c3 ++ '?' :: rest) := by
      rw [hu0]; simp
    have hu : url0 = a ++ ':' :: (c3 ++ X) := by
      rw [hXeq, hu0]; simp
    have hsu : splitFirstOn ':' url0 = some (a, c3 ++ X) := by
      rw [hu]; exact splitFirstOn_append ':' a _ hna
    have hinv := splitScheme_invalid_of url0 a (c3 ++ X) hsu hs0
    rw [hw]
    apply splitScheme_of_invalid _ a (c3 ++ '?' :: rest)
      (splitFirstOn_append ':' a _ hna)
    exact hinv
  · cases hr : splitFirstOn ':' (u0 ++ '?' :: rest) with
    | none => exact splitScheme_none _ hr
    | some p =>
      obtain ⟨aw, bw⟩ := p
      have hw2 : u0 ++ '?' :: rest = (u0 ++ ['?']) ++ rest := by simp
      have hstart := splitFirstOn_starts ':' (u0 ++ ['?']) rest aw bw
        (by rw [← hw2]; exact hr)
        (by
          intro hm
          rcases List.mem_append.mp hm with h1 | h1
          · exact hcol h1
          · simp at h1)
      obtain ⟨t, rfl⟩ := hstart
      apply splitScheme_of_invalid _ _ bw hr
      right
      intro c0 t0 he hcond
      have hqm : '?' ∈ (u0 ++ ['?']) ++ t := List.mem_append_left _ (by simp)
      rw [he] at hqm
      rw [List.all_eq_true] at hcond
      have := hcond.2 '?' (he ▸ hqm)
      rw [schemeChar, decide_eq_true_eq] at this
      rw [show ('?').toNat = 63 from rfl] at this
      omega

theorem splitScheme_slash_or_query (u0 rest : Str)
    (h : u0 = [] ∨ ∃ t, u0 = '/' :: t) :
    splitScheme (u0 ++ '?' :: rest) = ([], u0 ++ '?' :: rest) := by
  rcases h with rfl | ⟨t, rfl⟩
  · exact splitScheme_head_nonalpha '?' rest (by decide)
  · exact splitScheme_head_nonalpha '/' (t ++ '?' :: rest) (by decide)

theorem takeWhile_nil_dropWhile (p : Char → Bool) (l : Str)
    (h : l.takeWhile p = []) : l.dropWhile p = l := by
  cases l with
  | nil => rfl
  | cons c t =>
    by_cases hc : p c = true
    · rw [List.takeWhile_cons, if_pos hc] at h; cases h
    · rw [List.dropWhile_cons, if_neg hc]

theorem slashslash_shape (s : Str) (h : "//".toList.isPrefixOf s = true) :
    ∃ t, s = '/' :: '/' :: t := by
  match s with
  | [] => simp [List.isPrefixOf] at h
  | [c] => simp [List.isPrefixOf] at h
  | c :: d :: t =>
    simp [List.isPrefixOf] at h
    exact ⟨t, by rw [← h.1, ← h.2]⟩

theorem not_slashslash_append (u0 rest : Str)
    (h : ¬ ("//".toList.isPrefixOf u0 = true)) :
    ¬ ("//".toList.isPrefixOf (u0 ++ '?' :: rest) = true) := by
  match u0 with
  | [] => simp [List.isPrefixOf]
  | [c] => simp [List.isPrefixOf]
  | c :: d :: t =>
    simp [List.isPrefixOf] at h ⊢
    intro hc hd
    exact h hc hd

theorem slash_shape (s : Str) (h : "/".toList.isPrefixOf s = true) :
    ∃ t, s = '/' :: t := by
  match s with
  | [] => simp [List.isPrefixOf] at h
  | c :: t =>
    simp [List.isPrefixOf] at h
    exact ⟨t, by rw [← h]⟩

theorem splitFragStage_cons_ne (c : Char) (t : Str) (h : c ≠ '#') :
    ∃ t2, (splitFragStage (c :: t)).1 = c :: t2 := by
  rcases splitFragStage_cases (c :: t) with ⟨he, _⟩ | ⟨a, b, he, hr, hn⟩
  · rw [he]; exact ⟨t, rfl⟩
  · rw [he]
    cases a with
    | nil =>
      exfalso
      rw [List.nil_append] at hr
      injection hr with hr1 _
      exact h hr1
    | cons a0 t0 =>
      rw [List.cons_append] at hr
      injection hr with hr1 _
      exact ⟨t0, by rw [hr1]⟩

theorem splitFragStage_hash (t : Str) : (splitFragStage ('#' :: t)).1 = [] := by
  unfold splitFragStage splitFirstOn
  simp

theorem splitQueryStage_cons_ne (c : Char) (t : Str) (h : c ≠ '?') :
    ∃ t2, (splitQueryStage (c :: t)).1 = c :: t2 := by
  rcases splitQueryStage_cases (c :: t) with ⟨he, _⟩ | ⟨a, b, he, hr, hn⟩
  · rw [he]; exact ⟨t, rfl⟩
  · rw [he]
    cases a with
    | nil =>
      exfalso
      rw [List.nil_append] at hr
      injection hr with hr1 _
      exact h hr1
    | cons a0 t0 =>
      rw [List.cons_append] at hr
      injection hr with hr1 _
      exact ⟨t0, by rw [hr1]⟩

theorem splitQueryStage_qmark (t : Str) : (splitQueryStage ('?' :: t)).1 = [] := by
  unfold splitQueryStage splitFirstOn
  simp

theorem urlunparse_shape (scheme netloc path params q f : Str) (hq0 : q ≠ []) :
    urlunparse scheme netloc path params q f =
      ((if scheme = [] then
          (if netloc ≠ [] ∨ ((path ++ (if params = [] then [] else ';' :: params)) ≠ [] ∧
              "//".toList.isPrefixOf (path ++ (if params = [] then [] else ';' :: params)) = true) then
            "//".toList ++ netloc ++
              (if (path ++ (if params = [] then [] else ';' :: params)) ≠ [] ∧
                  ¬ ("/".toList.isPrefixOf (path ++ (if params = [] then [] else ';' :: params)) = true) then
                '/' :: (path ++ (if params = [] then [] else ';' :: params))
              else (path ++ (if params = [] then [] else ';' :: params)))
          else (path ++ (if params = [] then [] else ';' :: params)))
        else scheme ++ ':' ::
          (if netloc ≠ [] ∨ ((path ++ (if params = [] then [] else ';' :: params)) ≠ [] ∧
              "//".toList.isPrefixOf (path ++ (if params = [] then [] else ';' :: params)) = true) then
            "//".toList ++ netloc ++
              (if (path ++ (if params = [] then [] else ';' :: params)) ≠ [] ∧
                  ¬ ("/".toList.isPrefixOf (path ++ (if params = [] then [] else ';' :: params)) = true) then
                '/' :: (path ++ (if params = [] then [] else ';' :: params))
              else (path ++ (if params = [] then [] else ';' :: params)))
          else (path ++ (if params = [] then [] else ';' :: params)))) ++
        '?' :: (q ++ (if f = [] then [] else '#' :: f))) := by
  unfold urlunparse
  dsimp only
  rw [if_neg hq0]
  by_cases hf : f = []
  · rw [if_pos hf, if_pos hf]
    simp
  · rw [if_neg hf, if_neg hf]
    simp

theorem urlsplitRaw_scheme_eq (url : Str) :
    (urlsplitRaw url).scheme = (splitScheme (removeUnsafe url)).1 := rfl

theorem urlsplitRaw_netloc_eq (url : Str) :
    (urlsplitRaw url).netloc =
      (splitNetlocStage (splitScheme (removeUnsafe url)).2).1 := rfl

theorem urlsplitRaw_query_eq (url : Str) :
    (urlsplitRaw url).query =
      (splitQueryStage (splitFragStage
        (splitNetlocStage (splitScheme (removeUnsafe url)).2).2).1).2 := rfl

theorem urlsplitRaw_frag_eq (url : Str) :
    (urlsplitRaw url).fragment =
      (splitFragStage (splitNetlocStage (splitScheme (removeUnsafe url)).2).2).2 := rfl

theorem urlsplitRaw_path_eq (url : Str) :
    (urlsplitRaw url).path =
      (splitParamsStage (splitScheme (removeUnsafe url)).1
        (splitQueryStage (splitFragStage
          (splitNetlocStage (splitScheme (removeUnsafe url)).2).2).1).1).1 := rfl

theorem urlsplitRaw_params_eq (url : Str) :
    (urlsplitRaw url).params =
      (splitParamsStage (splitScheme (removeUnsafe url)).1
        (splitQueryStage (splitFragStage
          (splitNetlocStage (splitScheme (removeUnsafe url)).2).2).1).1).2 := rfl

set_option maxHeartbeats 1000000 in
theorem mem_urlunparse (s n p r q f : Str) (c : Char)
    (h : c ∈ urlunparse s n p r q f) :
    c ∈ s ∨ c ∈ n ∨ c ∈ p ∨ c ∈ r ∨ c ∈ q ∨ c ∈ f ∨
      c = ':' ∨ c = '/' ∨ c = ';' ∨ c = '?' ∨ c = '#' := by
  unfold urlunparse at h
  dsimp only at h
  rw [show "//".toList = ['/', '/'] from rfl] at h
  repeat' split at h
  all_goals clear * - h
  all_goals simp only [List.mem_append, List.mem_cons, List.append_nil,
    List.not_mem_nil, or_false, false_or] at h
  all_goals tauto

theorem splitNetlocStage_concat2 (netloc tail : Str)
    (hn : ∀ c ∈ netloc, (!(netStop c)) = true)
    (ht : tail = [] ∨ ∃ c t, tail = c :: t ∧ netStop c = true) :
    splitNetlocStage ('/' :: '/' :: (netloc ++ tail)) = (netloc, tail) := by
  have h := splitNetlocStage_concat netloc tail hn ht
  have he : "//".toList ++ netloc ++ tail = '/' :: '/' :: (netloc ++ tail) := by
    simp
  rw [he] at h
  exact h

theorem splitFrag_splitQuery_tail (a q f Ft : Str)
    (hFt : Ft = if f = [] then [] else '#' :: f)
    (haq : '?' ∉ a) (hah : '#' ∉ a) (hqq : '?' ∉ q) (hqh : '#' ∉ q) :
    splitFragStage (a ++ '?' :: (q ++ Ft)) = (a ++ '?' :: q, f) ∧
    splitQueryStage (a ++ '?' :: q) = (a, q) := by
  have hno : '#' ∉ a ++ '?' :: q := by
    intro hm
    rcases List.mem_append.mp hm with h1 | h1
    · exact hah h1
    · rcases List.mem_cons.mp h1 with h1 | h1
      · exact absurd h1 (by decide)
      · exact hqh h1
  refine ⟨?_, splitQueryStage_concat a q haq⟩
  by_cases hf : f = []
  · rw [hFt, if_pos hf, hf, List.append_nil]
    exact splitFragStage_no _ hno
  · rw [hFt, if_neg hf]
    have he : a ++ '?' :: (q ++ '#' :: f) = (a ++ '?' :: q) ++ '#' :: f := by simp
    rw [he]
    exact splitFragStage_concat _ f hno

theorem splitScheme_snd_of_fst_nil (s : Str) (h : (splitScheme s).1 = []) :
    (splitScheme s).2 = s := by
  unfold splitScheme at h ⊢
  cases hr : splitFirstOn ':' s with
  | none => rfl
  | some pr =>
    obtain ⟨pre, post⟩ := pr
    rw [hr] at h
    cases pre with
    | nil => rfl
    | cons c0 t0 =>
      dsimp only at h ⊢
      by_cases hcond : (asciiAlpha c0 && (c0 :: t0).all schemeChar) = true
      · rw [if_pos hcond] at h
        exfalso
        rw [toLowerS] at h
        simp at h
      · rw [if_neg hcond]

theorem dropWhile_nil_or_headStop (p : Char → Bool) (l : Str) :
    l.dropWhile p = [] ∨ ∃ c t, l.dropWhile p = c :: t ∧ p c = false := by
  induction l with
  | nil => exact Or.inl rfl
  | cons c t ih =>
    by_cases hc : p c = true
    · rw [List.dropWhile_cons, if_pos hc]
      exact ih
    · rw [List.dropWhile_cons, if_neg hc]
      exact Or.inr ⟨c, t, rfl, by simpa using hc⟩

theorem mem_joinAmp (ps : List Str) (c : Char) (h : c ∈ joinAmp ps) :
    c = '&' ∨ ∃ p ∈ ps, c ∈ p := by
  induction ps with
  | nil => cases h
  | cons p ps ih =>
    cases ps with
    | nil => exact Or.inr ⟨p, by simp, by simpa [joinAmp] using h⟩
    | cons p2 ps2 =>
      rw [show joinAmp (p :: p2 :: ps2) = p ++ '&' :: joinAmp (p2 :: ps2) from rfl] at h
      rcases List.mem_append.mp h with h1 | h1
      · exact Or.inr ⟨p, by simp, h1⟩
      · rcases List.mem_cons.mp h1 with h1 | h1
        · exact Or.inl h1
        · rcases ih h1 with h2 | ⟨p3, hp3, hc3⟩
          · exact Or.inl h2
          · exact Or.inr ⟨p3, List.mem_cons_of_mem _ hp3, hc3⟩

theorem mem_urlencode (d : List (Str × List Str)) (c : Char)
    (h : c ∈ urlencode d) : c = '&' ∨ c = '=' ∨ ∃ s, c ∈ quotePlus s := by
  unfold urlencode at h
  rcases mem_joinAmp _ c h with h1 | ⟨p, hp, hcp⟩
  · exact Or.inl h1
  · rw [List.mem_flatMap] at hp
    obtain ⟨kv, _, hp2⟩ := hp
    rw [List.mem_map] at hp2
    obtain ⟨v, _, rfl⟩ := hp2
    rcases List.mem_append.mp hcp with h2 | h2
    · exact Or.inr (Or.inr ⟨kv.1, h2⟩)
    · rcases List.mem_cons.mp h2 with h2 | h2
      · exact Or.inr (Or.inl h2)
      · exact Or.inr (Or.inr ⟨v, h2⟩)

theorem urlencode_chars (d : List (Str × List Str)) :
    ∀ c ∈ urlencode d,
      c ≠ '?' ∧ c ≠ '#' ∧ c ≠ '\t' ∧ c ≠ '\r' ∧ c ≠ '\n' := by
  intro c h
  rcases mem_urlencode d c h with rfl | rfl | ⟨s, hs⟩
  · exact ⟨by decide, by decide, by decide, by decide, by decide⟩
  · exact ⟨by decide, by decide, by decide, by decide, by decide⟩
  · rcases mem_quotePlus s c hs with h1 | rfl | rfl | h1 | h1
    · refine ⟨?_, ?_, ?_, ?_, ?_⟩ <;> (intro hc; rw [hc] at h1; revert h1; decide)
    · exact ⟨by decide, by decide, by decide, by decide, by decide⟩
    · exact ⟨by decide, by decide, by decide, by decide, by decide⟩
    · refine ⟨?_, ?_, ?_, ?_, ?_⟩ <;> (intro hc; rw [hc] at h1; revert h1; decide)
    · refine ⟨?_, ?_, ?_, ?_, ?_⟩ <;> (intro hc; rw [hc] at h1; revert h1; decide)

theorem joinAmp_ne_nil (ps : List Str) (h : ∃ p ∈ ps, p ≠ []) :
    joinAmp ps ≠ [] := by
  obtain ⟨p0, hp0, hne⟩ := h
  cases ps with
  | nil => cases hp0
  | cons p ps =>
    cases ps with
    | nil =>
      rcases List.mem_cons.mp hp0 with rfl | h1
      · simpa [joinAmp] using hne
      · cases h1
    | cons p2 ps2 =>
      rw [show joinAmp (p :: p2 :: ps2) = p ++ '&' :: joinAmp (p2 :: ps2) from rfl]
      simp

theorem dictSet_mem_self (d : List (Str × List Str)) (k : Str) (vs : List Str) :
    (k, vs) ∈ dictSet d k vs := by
  induction d with
  | nil => simp [dictSet]
  | cons kv0 rest ih =>
    obtain ⟨k0, vs0⟩ := kv0
    by_cases hk : k0 = k
    · rw [dictSet, if_pos hk]
      subst hk
      exact List.mem_cons_self _ _
    · rw [dictSet, if_neg hk]
      exact List.mem_cons_of_mem _ ih

theorem urlencode_dictSet_ne_nil (d : List (Str × List Str)) (k v : Str) :
    urlencode (dictSet d k [v]) ≠ [] := by
  unfold urlencode
  apply joinAmp_ne_nil
  refine ⟨quotePlus k ++ '=' :: quotePlus v, ?_, by simp⟩
  rw [List.mem_flatMap]
  exact ⟨(k, [v]), dictSet_mem_self d k [v], by simp⟩

set_option maxHeartbeats 1000000 in
theorem urlunparse_urlsplitRaw_core (S N P R q f : Str)
    (hq0 : q ≠ [])
    (hqc : ∀ c ∈ q, c ≠ '?' ∧ c ≠ '#' ∧ c ≠ '\t' ∧ c ≠ '\r' ∧ c ≠ '\n')
    (hSc : ∀ c ∈ S, schemeChar c = true)
    (hSl : toLowerS S = S)
    (hSa : S = [] ∨ ∃ c0 t, S = c0 :: t ∧ asciiAlpha c0 = true)
    (hNn : ∀ c ∈ N, (!(netStop c)) = true)
    (hPq : '?' ∉ P) (hPh : '#' ∉ P)
    (hRq : '?' ∉ R) (hRh : '#' ∉ R)
    (hcS : ∀ c ∈ S, c ≠ '\t' ∧ c ≠ '\r' ∧ c ≠ '\n')
    (hcN : ∀ c ∈ N, c ≠ '\t' ∧ c ≠ '\r' ∧ c ≠ '\n')
    (hcP : ∀ c ∈ P, c ≠ '\t' ∧ c ≠ '\r' ∧ c ≠ '\n')
    (hcR : ∀ c ∈ R, c ≠ '\t' ∧ c ≠ '\r' ∧ c ≠ '\n')
    (hcf : ∀ c ∈ f, c ≠ '\t' ∧ c ≠ '\r' ∧ c ≠ '\n')
    (hS0 : S = [] →
      (P ++ (if R = [] then [] else ';' :: R) = [] ∨
       (∃ t, P ++ (if R = [] then [] else ';' :: R) = '/' :: t) ∨
       ∃ url0 X, (splitScheme url0).1 = [] ∧
         url0 = (P ++ (if R = [] then [] else ';' :: R)) ++ X)) :
    (urlsplitRaw (urlunparse S N P R q f)).query = q ∧
    (urlsplitRaw (urlunparse S N P R q f)).fragment = f ∧
    ((urlsplitRaw (urlunparse S N P R q f)).netloc = N ∨
      (urlsplitRaw (urlunparse S N P R q f)).netloc = []) := by
  have hqq : '?' ∉ q := fun hm => (hqc '?' hm).1 rfl
  have hqh : '#' ∉ q := fun hm => (hqc '#' hm).2.1 rfl
  have hu0q : '?' ∉ P ++ (if R = [] then [] else ';' :: R) := by
    intro hm
    rcases List.mem_append.mp hm with h1 | h1
    · exact hPq h1
    · revert h1
      split
      · exact fun h1 => absurd h1 (List.not_mem_nil _)
      · intro h1
        rcases List.mem_cons.mp h1 with h2 | h2
        · exact absurd h2 (by decide)
        · exact hRq h2
  have hu0h : '#' ∉ P ++ (if R = [] then [] else ';' :: R) := by
    intro hm
    rcases List.mem_append.mp hm with h1 | h1
    · exact hPh h1
    · revert h1
      split
      · exact fun h1 => absurd h1 (List.not_mem_nil _)
      · intro h1
        rcases List.mem_cons.mp h1 with h2 | h2
        · exact absurd h2 (by decide)
        · exact hRh h2
  have hwc : ∀ c ∈ urlunparse S N P R q f, c ≠ '\t' ∧ c ≠ '\r' ∧ c ≠ '\n' := by
    intro c hc
    rcases mem_urlunparse S N P R q f c hc with h|h|h|h|h|h|h|h|h|h|h
    · exact hcS c h
    · exact hcN c h
    · exact hcP c h
    · exact hcR c h
    · obtain ⟨_, _, h3, h4, h5⟩ := hqc c h
      exact ⟨h3, h4, h5⟩
    · exact hcf c h
    · subst h; exact ⟨by decide, by decide, by decide⟩
    · subst h; exact ⟨by decide, by decide, by decide⟩
    · subst h; exact ⟨by decide, by decide, by decide⟩
    · subst h; exact ⟨by decide, by decide, by decide⟩
    · subst h; exact ⟨by decide, by decide, by decide⟩
  have hrm : removeUnsafe (urlunparse S N P R q f) = urlunparse S N P R q f :=
    removeUnsafe_eq_self _ hwc
  rw [urlsplitRaw_query_eq, urlsplitRaw_frag_eq, urlsplitRaw_netloc_eq, hrm,
    urlunparse_shape S N P R q f hq0]
  set u0 := P ++ (if R = [] then [] else ';' :: R) with hu0def
  set PP := (if u0 ≠ [] ∧ ¬ ("/".toList.isPrefixOf u0 = true) then '/' :: u0 else u0)
    with hPPdef
  set Ft := (if f = [] then [] else '#' :: f) with hFtdef
  have hPPq : '?' ∉ PP := by
    rw [hPPdef]
    split
    · intro hm
      rcases List.mem_cons.mp hm with h2 | h2
      · exact absurd h2 (by decide)
      · exact hu0q h2
    · exact hu0q
  have hPPh : '#' ∉ PP := by
    rw [hPPdef]
    split
    · intro hm
      rcases List.mem_cons.mp hm with h2 | h2
      · exact absurd h2 (by decide)
      · exact hu0h h2
    · exact hu0h
  have htail : ∃ c t, PP ++ '?' :: (q ++ Ft) = c :: t ∧ netStop c = true := by
    rw [hPPdef]
    split
    · exact ⟨'/', u0 ++ '?' :: (q ++ Ft), by simp, by decide⟩
    · next hcnd =>
      by_cases h0 : u0 = []
      · exact ⟨'?', q ++ Ft, by rw [h0]; simp, by decide⟩
      · have hpf : "/".toList.isPrefixOf u0 = true := by
          by_contra hcc
          exact hcnd ⟨h0, hcc⟩
        obtain ⟨t, ht⟩ := slash_shape u0 hpf
        exact ⟨'/', t ++ '?' :: (q ++ Ft), by rw [ht]; simp, by decide⟩
  obtain ⟨hfq1, hfq2⟩ := splitFrag_splitQuery_tail PP q f Ft hFtdef hPPq hPPh hqq hqh
  obtain ⟨hfq1u, hfq2u⟩ := splitFrag_splitQuery_tail u0 q f Ft hFtdef hu0q hu0h hqq hqh
  have hassoc2 : ("//".toList ++ N ++ PP) ++ '?' :: (q ++ Ft) =
      '/' :: '/' :: (N ++ (PP ++ '?' :: (q ++ Ft))) := by simp
  have hnet1 : splitNetlocStage ('/' :: '/' :: (N ++ (PP ++ '?' :: (q ++ Ft)))) =
      (N, PP ++ '?' :: (q ++ Ft)) :=
    splitNetlocStage_concat2 N _ hNn (Or.inr htail)
  have hCneg : ¬(N ≠ [] ∨ (u0 ≠ [] ∧ "//".toList.isPrefixOf u0 = true)) →
      ¬("//".toList.isPrefixOf u0 = true) := by
    intro hC
    rw [not_or] at hC
    by_cases h0 : u0 = []
    · rw [h0]; decide
    · exact fun hp => hC.2 ⟨h0, hp⟩
  by_cases hS : S = []
  · rw [if_pos hS]
    by_cases hC : N ≠ [] ∨ (u0 ≠ [] ∧ "//".toList.isPrefixOf u0 = true)
    · rw [if_pos hC, hassoc2, splitScheme_head_nonalpha '/' _ (by decide)]
      dsimp only
      rw [hnet1]
      dsimp only
      rw [hfq1]
      dsimp only
      rw [hfq2]
      exact ⟨rfl, rfl, Or.inl rfl⟩
    · rw [if_neg hC]
      have hnoss := hCneg hC
      have hsch : splitScheme (u0 ++ '?' :: (q ++ Ft)) =
          ([], u0 ++ '?' :: (q ++ Ft)) := by
        rcases hS0 hS with h0 | ⟨t, hsl⟩ | ⟨url0, X, hsu, hurl0⟩
        · exact splitScheme_slash_or_query u0 (q ++ Ft) (Or.inl h0)
        · exact splitScheme_slash_or_query u0 (q ++ Ft) (Or.inr ⟨t, hsl⟩)
        · exact splitScheme_append_invalid url0 u0 (q ++ Ft) hsu ⟨X, hurl0⟩
      rw [hsch]
      dsimp only
      rw [splitNetlocStage_no_slash _ (not_slashslash_append u0 (q ++ Ft) hnoss)]
      dsimp only
      rw [hfq1u]
      dsimp only
      rw [hfq2u]
      exact ⟨rfl, rfl, Or.inr rfl⟩
  · rw [if_neg hS]
    obtain ⟨c0, t0, hSe, hSal⟩ : ∃ c0 t0, S = c0 :: t0 ∧ asciiAlpha c0 = true := by
      rcases hSa with h0 | h1
      · exact absurd h0 hS
      · exact h1
    have hallS : S.all schemeChar = true := List.all_eq_true.mpr hSc
    have hcolS : ':' ∉ S := all_schemeChar_no_colon S hallS
    have hval : ∀ post, splitScheme (S ++ ':' :: post) = (S, post) := by
      intro post
      rw [splitScheme_of_valid S post c0 t0 hSe hSal hallS hcolS, hSl]
    have hassocS : ∀ V : Str, (S ++ ':' :: V) ++ '?' :: (q ++ Ft) =
        S ++ ':' :: (V ++ '?' :: (q ++ Ft)) := by
      intro V
      simp
    rw [hassocS, hval]
    dsimp only
    by_cases hC : N ≠ [] ∨ (u0 ≠ [] ∧ "//".toList.isPrefixOf u0 = true)
    · rw [if_pos hC, hassoc2, hnet1]
      dsimp only
      rw [hfq1]
      dsimp only
      rw [hfq2]
      exact ⟨rfl, rfl, Or.inl rfl⟩
    · rw [if_neg hC]
      have hnoss := hCneg hC
      rw [splitNetlocStage_no_slash _ (not_slashslash_append u0 (q ++ Ft) hnoss)]
      dsimp only
      rw [hfq1u]
      dsimp only
      rw [hfq2u]
      exact ⟨rfl, rfl, Or.inr rfl⟩

set_option maxHeartbeats 1000000 in
theorem urlsplitRaw_u0_shape (u : Str) (h : (urlsplitRaw u).scheme = []) :
    ((urlsplitRaw u).path ++
        (if (urlsplitRaw u).params = [] then []
          else ';' :: (urlsplitRaw u).params) = [] ∨
      (∃ t, (urlsplitRaw u).path ++
        (if (urlsplitRaw u).params = [] then []
          else ';' :: (urlsplitRaw u).params) = '/' :: t) ∨
      ∃ url0 X, (splitScheme url0).1 = [] ∧
        url0 = ((urlsplitRaw u).path ++
          (if (urlsplitRaw u).params = [] then []
            else ';' :: (urlsplitRaw u).params)) ++ X) := by
  rw [urlsplitRaw_scheme_eq] at h
  rw [urlsplitRaw_path_eq, urlsplitRaw_params_eq, h]
  have hTu : (splitScheme (removeUnsafe u)).2 = removeUnsafe u :=
    splitScheme_snd_of_fst_nil _ h
  rw [hTu]
  by_cases hnb : "//".toList.isPrefixOf (removeUnsafe u) = true
  · obtain ⟨t, hsh⟩ := slashslash_shape _ hnb
    have hnl : (splitNetlocStage (removeUnsafe u)).2 =
        t.dropWhile (fun c => !(netStop c)) := by
      rw [hsh]
      unfold splitNetlocStage
      rw [if_pos (by simp [List.isPrefixOf])]
      rfl
    rw [hnl]
    rcases dropWhile_nil_or_headStop (fun c => !(netStop c)) t with hdw | ⟨c, t2, hdw, hpc⟩
    · rw [hdw]
      left
      decide
    · have hcs : netStop c = true := by simpa using hpc
      have hc3 : (c = '/' ∨ c = '?') ∨ c = '#' := by
        unfold netStop at hcs
        simpa using hcs
      rw [hdw]
      rcases hc3 with (rfl | rfl) | rfl
      · obtain ⟨ta, hA⟩ := splitFragStage_cons_ne '/' t2 (by decide)
        rw [hA]
        obtain ⟨tb, hA1⟩ := splitQueryStage_cons_ne '/' ta (by decide)
        rw [hA1]
        obtain ⟨t3, ht3, hrec⟩ := splitParamsStage_recombine [] ('/' :: tb)
        cases hP : (splitParamsStage [] ('/' :: tb)).1 with
        | nil =>
          exfalso
          rw [hP, List.nil_append] at hrec
          revert hrec
          split
          · intro hrec
            rw [List.nil_append] at hrec
            rcases ht3 with rfl | rfl
            · exact List.cons_ne_nil _ _ hrec
            · injection hrec with h1 _
              exact absurd h1 (by decide)
          · intro hrec
            rw [List.cons_append] at hrec
            injection hrec with h1 _
            exact absurd h1 (by decide)
        | cons cP tP =>
          right; left
          rw [hP, List.cons_append, List.cons_append] at hrec
          injection hrec with h1 _
          refine ⟨tP ++ (if (splitParamsStage [] ('/' :: tb)).2 = [] then []
            else ';' :: (splitParamsStage [] ('/' :: tb)).2), ?_⟩
          rw [← h1]
          rw [List.cons_append]
      · obtain ⟨ta, hA⟩ := splitFragStage_cons_ne '?' t2 (by decide)
        rw [hA, splitQueryStage_qmark]
        left
        decide
      · rw [splitFragStage_hash]
        left
        decide
  · have hnl : splitNetlocStage (removeUnsafe u) = ([], removeUnsafe u) :=
      splitNetlocStage_no_slash _ hnb
    rw [hnl]
    dsimp only
    right; right
    have hfr : ∃ Y, removeUnsafe u = (splitFragStage (removeUnsafe u)).1 ++ Y := by
      rcases splitFragStage_cases (removeUnsafe u) with ⟨he, _⟩ | ⟨a, b, he, hreq, _⟩
      · rw [he]; exact ⟨[], by simp⟩
      · rw [he]; exact ⟨'#' :: b, hreq⟩
    obtain ⟨Y, hY⟩ := hfr
    have hqr : ∃ Z, (splitFragStage (removeUnsafe u)).1 =
        (splitQueryStage (splitFragStage (removeUnsafe u)).1).1 ++ Z := by
      rcases splitQueryStage_cases ((splitFragStage (removeUnsafe u)).1) with
        ⟨he, _⟩ | ⟨a, b, he, hreq, _⟩
      · rw [he]; exact ⟨[], by simp⟩
      · rw [he]; exact ⟨'?' :: b, hreq⟩
    obtain ⟨Z, hZ⟩ := hqr
    obtain ⟨t3, ht3, hrec⟩ := splitParamsStage_recombine []
      ((splitQueryStage (splitFragStage (removeUnsafe u)).1).1)
    refine ⟨removeUnsafe u, t3 ++ (Z ++ Y), h, ?_⟩
    conv_lhs => rw [hY]
    conv_lhs => rw [hZ]
    conv_lhs => rw [hrec]
    simp

theorem urlsplitRaw_reparse (u q : Str) (hq0 : q ≠ [])
    (hqc : ∀ c ∈ q, c ≠ '?' ∧ c ≠ '#' ∧ c ≠ '\t' ∧ c ≠ '\r' ∧ c ≠ '\n') :
    (urlsplitRaw (urlunparse (urlsplitRaw u).scheme (urlsplitRaw u).netloc
        (urlsplitRaw u).path (urlsplitRaw u).params q
        (urlsplitRaw u).fragment)).query = q ∧
    (urlsplitRaw (urlunparse (urlsplitRaw u).scheme (urlsplitRaw u).netloc
        (urlsplitRaw u).path (urlsplitRaw u).params q
        (urlsplitRaw u).fragment)).fragment = (urlsplitRaw u).fragment ∧
    ((urlsplitRaw (urlunparse (urlsplitRaw u).scheme (urlsplitRaw u).netloc
        (urlsplitRaw u).path (urlsplitRaw u).params q
        (urlsplitRaw u).fragment)).netloc = (urlsplitRaw u).netloc ∨
      (urlsplitRaw (urlunparse (urlsplitRaw u).scheme (urlsplitRaw u).netloc
        (urlsplitRaw u).path (urlsplitRaw u).params q
        (urlsplitRaw u).fragment)).netloc = []) := by
  refine urlunparse_urlsplitRaw_core _ _ _ _ _ _ hq0 hqc
    ?_ ?_ ?_ ?_ ?_ ?_ ?_ ?_ ?_ ?_ ?_ ?_ ?_ ?_
  · rw [urlsplitRaw_scheme_eq]
    exact (splitScheme_fst_props (removeUnsafe u)).2.1
  · rw [urlsplitRaw_scheme_eq]
    exact (splitScheme_fst_props (removeUnsafe u)).2.2
  · rw [urlsplitRaw_scheme_eq]
    exact (splitScheme_fst_props (removeUnsafe u)).1
  · rw [urlsplitRaw_netloc_eq]
    exact splitNetlocStage_fst_noStop _
  · rw [urlsplitRaw_path_eq]
    intro hm
    exact splitQueryStage_fst_no _ (splitParamsStage_fst_mem _ _ '?' hm)
  · rw [urlsplitRaw_path_eq]
    intro hm
    exact splitFragStage_fst_no _
      (splitQueryStage_fst_mem _ '#' (splitParamsStage_fst_mem _ _ '#' hm))
  · rw [urlsplitRaw_params_eq]
    intro hm
    exact splitQueryStage_fst_no _ (splitParamsStage_snd_mem _ _ '?' hm)
  · rw [urlsplitRaw_params_eq]
    intro hm
    exact splitFragStage_fst_no _
      (splitQueryStage_fst_mem _ '#' (splitParamsStage_snd_mem _ _ '#' hm))
  · exact fun c hm => urlsplitRaw_clean u c (Or.inl hm)
  · exact fun c hm => urlsplitRaw_clean u c (Or.inr (Or.inl hm))
  · exact fun c hm => urlsplitRaw_clean u c (Or.inr (Or.inr (Or.inl hm)))
  · exact fun c hm => urlsplitRaw_clean u c (Or.inr (Or.inr (Or.inr (Or.inl hm))))
  · exact fun c hm => urlsplitRaw_clean u c (Or.inr (Or.inr (Or.inr (Or.inr hm))))
  · exact urlsplitRaw_u0_shape u

theorem urlparse_ok_elim (u : Str) (p : UrlParts) (hp : urlparse u = Except.ok p) :
    bracketsUnbalanced (urlsplitRaw u).netloc = false ∧ p = urlsplitRaw u := by
  simp only [urlparse] at hp
  cases hbr : bracketsUnbalanced (urlsplitRaw u).netloc
  · rw [hbr] at hp
    simp only [Bool.false_eq_true, if_false, Except.ok.injEq] at hp
    exact ⟨rfl, hp.symm⟩
  · rw [hbr] at hp
    simp at hp

theorem dl_dict_wf (x : Str) :
    QDictWF (dictSet (parse_qs x) "dl".toList ["1".toList]) :=
  dictSet_wf _ _ _ (parse_qs_wf x) (by simp) (by
    intro v hv
    rw [List.mem_singleton] at hv
    subst hv
    decide)

theorem parse_qs_dl (x : Str) :
    parse_qs (urlencode (dictSet (parse_qs x) "dl".toList ["1".toList])) =
      dictSet (parse_qs x) "dl".toList ["1".toList] :=
  parse_qs_urlencode _ (dl_dict_wf x)

/-- C5: the Dropbox rewrite is idempotent — whenever `convert_dropbox_url`
returns a URL `v` (with any rewritten flag), running the conversion on `v`
returns `v` itself unchanged, with the rewritten flag `false`: a first
rewrite's output is a fixed point, because its query string carries
`dl=1`. -/
theorem convert_dropbox_url_idempotent (u v : Str) (b : Bool)
    (h : convert_dropbox_url u = Except.ok (v, b)) :
    convert_dropbox_url v = Except.ok (v, false) := by
  unfold convert_dropbox_url at h
  cases hdb : containsSub (toLowerS u) "dropbox.com".toList with
  | false =>
    rw [hdb] at h
    simp only [Bool.not_false, if_true, Except.ok.injEq, Prod.mk.injEq] at h
    obtain ⟨rfl, rfl⟩ := h
    unfold convert_dropbox_url
    rw [hdb]
    simp only [Bool.not_false, if_true]
  | true =>
    rw [hdb] at h
    simp only [Bool.not_true, Bool.false_eq_true, if_false] at h
    cases hp : urlparse u with
    | error e =>
      rw [hp] at h
      dsimp only at h
      exact Except.noConfusion h
    | ok parsed =>
      rw [hp] at h
      dsimp only at h
      by_cases hdl :
          (dictGet (parse_qs parsed.query) "dl".toList ["0".toList]).headD [] =
            "1".toList
      · rw [if_pos hdl] at h
        simp only [Except.ok.injEq, Prod.mk.injEq] at h
        obtain ⟨rfl, rfl⟩ := h
        unfold convert_dropbox_url
        rw [hdb]
        simp only [Bool.not_true, Bool.false_eq_true, if_false]
        rw [hp]
        dsimp only
        rw [if_pos hdl]
      · rw [if_neg hdl] at h
        simp only [Except.ok.injEq, Prod.mk.injEq] at h
        obtain ⟨hv, hb⟩ := h
        obtain ⟨hbru, hparsed⟩ := urlparse_ok_elim u parsed hp
        subst hparsed
        subst hv
        have hrep := urlsplitRaw_reparse u
          (urlencode (dictSet (parse_qs (urlsplitRaw u).query) "dl".toList
            ["1".toList]))
          (urlencode_dictSet_ne_nil _ _ _) (urlencode_chars _)
        obtain ⟨hq', hf', hn'⟩ := hrep
        unfold convert_dropbox_url
        cases hd2 : containsSub (toLowerS (urlunparse (urlsplitRaw u).scheme
            (urlsplitRaw u).netloc (urlsplitRaw u).path (urlsplitRaw u).params
            (urlencode (dictSet (parse_qs (urlsplitRaw u).query) "dl".toList
              ["1".toList])) (urlsplitRaw u).fragment))
            "dropbox.com".toList with
        | false =>
          simp only [hd2, Bool.not_false, if_true]
        | true =>
          simp only [hd2, Bool.not_true, Bool.false_eq_true, if_false]
          have hbrv : bracketsUnbalanced ((urlsplitRaw (urlunparse
              (urlsplitRaw u).scheme (urlsplitRaw u).netloc (urlsplitRaw u).path
              (urlsplitRaw u).params
              (urlencode (dictSet (parse_qs (urlsplitRaw u).query) "dl".toList
                ["1".toList])) (urlsplitRaw u).fragment)).netloc) = false := by
            rcases hn' with he | he
            · rw [he]; exact hbru
            · rw [he]; decide
          simp only [urlparse]
          rw [hbrv]
          simp only [Bool.false_eq_true, if_false]
          rw [hq', parse_qs_dl, dictGet_dictSet]
          rw [if_pos (show (["1".toList] : List Str).headD [] = "1".toList from rfl)]

/-- Witness for C5: converting a URL already rewritten to `dl=1` returns it
unchanged. -/
theorem convert_dropbox_url_idempotent_witness :
    convert_dropbox_url "https://www.dropbox.com/s/abc/f.csv?dl=1".toList =
      Except.ok ("https://www.dropbox.com/s/abc/f.csv?dl=1".toList, false) :=
  convert_dropbox_url_idempotent "https://www.dropbox.com/s/abc/f.csv?dl=0".toList
    "https://www.dropbox.com/s/abc/f.csv?dl=1".toList true (by decide)

/-- C6: on a Dropbox URL whose query does not already carry `dl=1` (and
which `urlparse` accepts as components `p`), `convert_dropbox_url` returns
a rewritten URL with flag `true` whose query dict is exactly the original
query dict with `dl` set/overwritten to `1` — every other query parameter
is preserved — and whose fragment equals the original fragment. -/
theorem convert_dropbox_url_frame (u : Str) (p : UrlParts)
    (hdb : containsSub (toLowerS u) "dropbox.com".toList = true)
    (hp : urlparse u = Except.ok p)
    (hdl : (dictGet (parse_qs p.query) "dl".toList ["0".toList]).headD [] ≠
      "1".toList) :
    ∃ v, convert_dropbox_url u = Except.ok (v, true) ∧
      parse_qs (urlsplitRaw v).query =
        dictSet (parse_qs p.query) "dl".toList ["1".toList] ∧
      (urlsplitRaw v).fragment = p.fragment := by
  obtain ⟨hbru, hparsed⟩ := urlparse_ok_elim u p hp
  subst hparsed
  refine ⟨urlunparse (urlsplitRaw u).scheme (urlsplitRaw u).netloc
    (urlsplitRaw u).path (urlsplitRaw u).params
    (urlencode (dictSet (parse_qs (urlsplitRaw u).query) "dl".toList
      ["1".toList])) (urlsplitRaw u).fragment, ?_, ?_, ?_⟩
  · unfold convert_dropbox_url
    rw [hdb]
    simp only [Bool.not_true, Bool.false_eq_true, if_false]
    rw [hp]
    dsimp only
    rw [if_neg hdl]
  · have hrep := urlsplitRaw_reparse u
      (urlencode (dictSet (parse_qs (urlsplitRaw u).query) "dl".toList
        ["1".toList]))
      (urlencode_dictSet_ne_nil _ _ _) (urlencode_chars _)
    rw [hrep.1]
    exact parse_qs_dl _
  · have hrep := urlsplitRaw_reparse u
      (urlencode (dictSet (parse_qs (urlsplitRaw u).query) "dl".toList
        ["1".toList]))
      (urlencode_dictSet_ne_nil _ _ _) (urlencode_chars _)
    exact hrep.2.1

/-- Witness for C6 on a Dropbox share URL with an extra query parameter
and a fragment. -/
theorem convert_dropbox_url_frame_witness :
    ∃ v, convert_dropbox_url
        "https://www.dropbox.com/s/x/f.csv?rlkey=abc&dl=0#frag".toList =
        Except.ok (v, true) ∧
      parse_qs (urlsplitRaw v).query =
        dictSet (parse_qs (urlsplitRaw
          "https://www.dropbox.com/s/x/f.csv?rlkey=abc&dl=0#frag".toList).query)
          "dl".toList ["1".toList] ∧
      (urlsplitRaw v).fragment =
        (urlsplitRaw
          "https://www.dropbox.com/s/x/f.csv?rlkey=abc&dl=0#frag".toList).fragment :=
  convert_dropbox_url_frame
    "https://www.dropbox.com/s/x/f.csv?rlkey=abc&dl=0#frag".toList
    (urlsplitRaw "https://www.dropbox.com/s/x/f.csv?rlkey=abc&dl=0#frag".toList)
    (by decide) (by decide) (by decide)

/-- Witness for the amended C9: a second bracketed Dropbox URL hits the
error case, and a non-Dropbox URL passes through untouched. -/
theorem convert_dropbox_url_error_cases_witness :
    convert_dropbox_url "http://[dropbox.com/b".toList = Except.error () ∧
    convert_dropbox_url "https://example.com/data.csv".toList =
      Except.ok ("https://example.com/data.csv".toList, false) :=
  ⟨(convert_dropbox_url_error_cases "http://[dropbox.com/b".toList).1
      (by decide) (by decide),
    (convert_dropbox_url_error_cases "https://example.com/data.csv".toList).2
      (by decide)⟩
